import Mathlib

/-!
# Dense matrix product: sequential kernel and distributed (scatter / compute / gather) pipeline

Shallow embedding of
* `src/distributed_matrix_multiplication/distributed_matrix_multiplication.c`
  (namespace `Distributed`), and
* `src/matrix_multiplication.c` (namespace `Sequential`).

Modelling conventions.
* `double` values are exact integers (`Int`): the embeddings compute in exact
  arithmetic. The `_fl` variants pass every arithmetic result through a
  rounding function and are shown to agree with the exact ones on the
  built-in inputs.
* A flat `double *` buffer is a `List Int`; every read and every write is
  bounds-checked and an out-of-bounds access makes the whole computation
  `none`.
* `malloc` returns a buffer of the requested number of cells whose initial
  content is arbitrary: it is read off a caller-supplied stream of values.
* C `int` loop counters and index expressions are natural numbers. The
  `_int` variants of the distributed program evaluate every count and index
  expression in 32-bit `int` arithmetic and are shown to agree with the
  others whenever `n * n` fits in `int` (the source's `n` is 1000).
* A counted `for (k = 0; k < n; k++)` loop is `forLoop body n`.
-/

/-- A flat buffer of `double` cells (exact arithmetic). -/
abbrev Buf := List Int

/-- Bounds-checked read `b[i]`. -/
def rd (b : Buf) (i : Nat) : Option Int := b[i]?

/-- Bounds-checked write `b[i] = v`. -/
def wr (b : Buf) (i : Nat) (v : Int) : Option Buf :=
  if i < b.length then some (b.set i v) else none

/-- The loop `for (k = 0; k < n; k++) body(k)` threaded through a state;
 iterations run in the order `0, 1, ..., n-1` and a failing iteration
 aborts the loop. -/
def forLoop {σ : Type} (body : Nat → σ → Option σ) : Nat → σ → Option σ
  | 0, s => some s
  | k + 1, s => (forLoop body k s).bind (body k)

/-- The call `malloc(count * sizeof(double))`: `count` cells whose initial
 content is whatever the allocator hands out (the stream `junk`). -/
def malloc (count : Nat) (junk : Nat → Int) : Buf := (List.range count).map junk

namespace Distributed

/-- Kernel of the distributed file, lines 6-15:
 `matrix_multiply(rows, n, A, B, C)` on flat row-major buffers. -/
def matrix_multiply (rows n : Nat) (A B C : Buf) : Option Buf :=
  forLoop (fun i C =>
    forLoop (fun j C => do
      let C ← wr C (i * n + j) 0
      forLoop (fun k C => do
        let c ← rd C (i * n + j)
        let a ← rd A (i * n + k)
        let b ← rd B (k * n + j)
        wr C (i * n + j) (c + a * b)) n C) n C) rows C

/-- Specification value: the entry `(i, j)` of the product of the row block `A` (rows of width `n`)
 with the `n × n` matrix `B`, both flat and row-major. -/
def dot (n : Nat) (A B : Buf) (i j : Nat) : Int :=
  ∑ k ∈ Finset.range n, A.getD (i * n + k) 0 * B.getD (k * n + j) 0

/-- Root initialisation, lines 35-40: `A[i*n+j] = i + j`, `B[i*n+j] = i - j`. -/
def init_matrices (n : Nat) (A B : Buf) : Option (Buf × Buf) :=
  forLoop (fun i AB =>
    forLoop (fun j AB => do
      let A ← wr AB.1 (i * n + j) ((i : Int) + (j : Int))
      let B ← wr AB.2 (i * n + j) ((i : Int) - (j : Int))
      pure (A, B)) n AB) n (A, B)

/-- Per-process row count passed to the kernel (line 60): `n / world_size`. -/
def rows_per_proc (n world_size : Nat) : Nat := n / world_size

/-- Element count of the broadcast (line 47): `n * n`, on naturals (the `int`
 evaluation is in `rank_B_int`). -/
def bcast_count (n : Nat) : Nat := n * n

/-- Element count used for `local_A`, `local_C`, the scatter and the gather
 (lines 50, 51, 54, 67): `n * n / world_size`, on naturals (the `int`
 evaluation is in `rank_local_A_int`, `rank_local_C_int`, `pipeline_int`). -/
def chunk_count (n world_size : Nat) : Nat := n * n / world_size

/-- Modelled from the spec: `MPI_Bcast` is a library routine (`mpi.h`), not
 code of the repository. After it returns, the first `count` cells of every
 process's buffer hold the root's first `count` cells. -/
def MPI_Bcast (root_buf : Buf) (count : Nat) (buf : Buf) : Option Buf :=
  if count ≤ root_buf.length ∧ count ≤ buf.length then
    some (root_buf.take count ++ buf.drop count)
  else none

/-- Modelled from the spec: `MPI_Scatter` is a library routine (`mpi.h`). The
 root's send buffer is split into `world_size` contiguous chunks of `count`
 cells and chunk `rank` lands in the first `count` cells of that rank's
 receive buffer. -/
def MPI_Scatter (send : Buf) (count world_size rank : Nat) (recv : Buf) : Option Buf :=
  if world_size * count ≤ send.length ∧ count ≤ recv.length then
    some ((send.drop (rank * count)).take count ++ recv.drop count)
  else none

/-- Modelled from the spec: `MPI_Gather` is a library routine (`mpi.h`). The
 first `count` cells of the send buffer of rank `r` are placed in the root's
 receive buffer at offset `r * count`, for every rank in rank order. -/
def MPI_Gather (sends : List Buf) (count : Nat) (recv : Buf) : Option Buf :=
  forLoop (fun r recv => do
    let s ← sends[r]?
    if count ≤ s.length ∧ r * count + count ≤ recv.length then
      some (recv.take (r * count) ++ s.take count ++ recv.drop (r * count + count))
    else none) sends.length recv

/-- Initial content of every heap block the distributed program allocates:
 `A`, `B`, `C` on the root, the `B` replica of each non-root rank, and
 `local_A`, `local_C` of each rank. -/
structure Junk where
  A : Nat → Int
  B : Nat → Int
  C : Nat → Int
  B_rank : Nat → Nat → Int
  local_A : Nat → Nat → Int
  local_C : Nat → Nat → Int

/-- Lines 44-47 as seen by process `rank`: the root keeps its `B`, every other
 rank allocates `n * n` cells and receives the broadcast. -/
def rank_B (n : Nat) (B : Buf) (g : Junk) (rank : Nat) : Option Buf :=
  if rank = 0 then MPI_Bcast B (bcast_count n) B
  else MPI_Bcast B (bcast_count n) (malloc (n * n) (g.B_rank rank))

/-- Lines 50 and 54 as seen by process `rank`: allocate `local_A` and receive
 this rank's chunk of `A`. -/
def rank_local_A (n world_size : Nat) (A : Buf) (g : Junk) (rank : Nat) : Option Buf :=
  MPI_Scatter A (chunk_count n world_size) world_size rank
    (malloc (chunk_count n world_size) (g.local_A rank))

/-- Lines 44-60 as seen by process `rank`: the content of `local_C` when the
 process enters the gather. -/
def rank_local_C (n world_size : Nat) (A B : Buf) (g : Junk) (rank : Nat) : Option Buf := do
  let B_r ← rank_B n B g rank
  let local_A ← rank_local_A n world_size A g rank
  matrix_multiply (rows_per_proc n world_size) n local_A B_r
    (malloc (chunk_count n world_size) (g.local_C rank))

/-- The send buffers of ranks `0 .. world_size-1`, in rank order. -/
def all_ranks (world_size : Nat) (f : Nat → Option Buf) : Option (List Buf) :=
  forLoop (fun r acc => (f r).map (fun c => acc ++ [c])) world_size []

/-- Lines 43-67 with the root holding `A`, `B` and the block `C`: broadcast,
 scatter, local compute on every rank, gather. The value is the root's `C`
 after the gather. -/
def pipeline (n world_size : Nat) (A B C : Buf) (g : Junk) : Option Buf := do
  let sends ← all_ranks world_size (rank_local_C n world_size A B g)
  MPI_Gather sends (chunk_count n world_size) C

/-- Lines 72-77: the root prints `C[i*n+j]`, one matrix row per line. -/
def print_matrix (n : Nat) (C : Buf) : Option (List (List Int)) :=
  forLoop (fun i out =>
    (forLoop (fun j line => (rd C (i * n + j)).map (fun v => line ++ [v])) n []).map
      (fun line => out ++ [line])) n []

/-- What a run shows: the lines of the printed matrix and the exit code. -/
structure Output where
  printed : List (List Int)
  exit_code : Int
deriving DecidableEq

/-- Lines 43-93 started with given operands `A`, `B` on the root. -/
def run (n world_size : Nat) (A B : Buf) (g : Junk) : Option Output := do
  let C ← pipeline n world_size A B (malloc (n * n) g.C) g
  let printed ← print_matrix n C
  pure ⟨printed, 0⟩

/-- The program `main` with matrix size `n` (1000 in the source) run by
 `world_size` processes. -/
def main (n world_size : Nat) (g : Junk) : Option Output := do
  let AB ← init_matrices n (malloc (n * n) g.A) (malloc (n * n) g.B)
  run n world_size AB.1 AB.2 g

end Distributed

namespace Sequential

/-- A `double **` matrix: a list of separately allocated rows. -/
abbrev Mat := List (List Int)

/-- Bounds-checked read `M[i][j]`. -/
def rd2 (M : Mat) (i j : Nat) : Option Int := do
  let row ← M[i]?
  row[j]?

/-- Bounds-checked write `M[i][j] = v`. -/
def wr2 (M : Mat) (i j : Nat) (v : Int) : Option Mat := do
  let row ← M[i]?
  if j < row.length then some (M.set i (row.set j v)) else none

/-- The value of cell `(i, j)` of a matrix (0 outside the matrix). -/
def entry (M : Mat) (i j : Nat) : Int := (rd2 M i j).getD 0

/-- Every cell `(i, j)` with `i, j < n` exists in `M`. -/
def IsMat (n : Nat) (M : Mat) : Prop := ∀ i, i < n → ∀ j, j < n → (rd2 M i j).isSome = true

/-- Specification value: the entry `(i, j)` of the product of two `n × n`
 matrices. -/
def dot (n : Nat) (A B : Mat) (i j : Nat) : Int :=
  ∑ k ∈ Finset.range n, entry A i k * entry B k j

/-- The row-pointer matrix `M` holds the same `n × n` values as the flat
 row-major buffer `F`. -/
def SameMatrix (n : Nat) (M : Mat) (F : Buf) : Prop :=
  ∀ i, i < n → ∀ j, j < n → rd2 M i j = some (F.getD (i * n + j) 0)

/-- Kernel of the sequential file, lines 6-15: `matrix_multiply(n, A, B, C)`. -/
def matrix_multiply (n : Nat) (A B C : Mat) : Option Mat :=
  forLoop (fun i C =>
    forLoop (fun j C => do
      let C ← wr2 C i j 0
      forLoop (fun k C => do
        let c ← rd2 C i j
        let a ← rd2 A i k
        let b ← rd2 B k j
        wr2 C i j (c + a * b)) n C) n C) n C

/-- Lines 19-26: `n` rows of `n` cells each, with arbitrary initial content. -/
def alloc_matrix (n : Nat) (junk : Nat → Nat → Int) : Mat :=
  (List.range n).map (fun i => malloc n (junk i))

/-- Lines 29-34: `A[i][j] = i + j`, `B[i][j] = i - j`. -/
def init_matrices (n : Nat) (A B : Mat) : Option (Mat × Mat) :=
  forLoop (fun i AB =>
    forLoop (fun j AB => do
      let A ← wr2 AB.1 i j ((i : Int) + (j : Int))
      let B ← wr2 AB.2 i j ((i : Int) - (j : Int))
      pure (A, B)) n AB) n (A, B)

/-- Lines 48-53: print `C[i][j]`, one matrix row per line. -/
def print_matrix (n : Nat) (C : Mat) : Option (List (List Int)) :=
  forLoop (fun i out =>
    (forLoop (fun j line => (rd2 C i j).map (fun v => line ++ [v])) n []).map
      (fun line => out ++ [line])) n []

/-- Initial content of the three matrices the sequential program allocates. -/
structure Junk where
  A : Nat → Nat → Int
  B : Nat → Nat → Int
  C : Nat → Nat → Int

/-- The program `main` with matrix size `n` (1009 in the source): the printed
 matrix and the exit code. -/
def main (n : Nat) (g : Junk) : Option (List (List Int) × Int) := do
  let AB ← init_matrices n (alloc_matrix n g.A) (alloc_matrix n g.B)
  let C ← matrix_multiply n AB.1 AB.2 (alloc_matrix n g.C)
  let printed ← print_matrix n C
  pure (printed, 0)

end Sequential

namespace Distributed

/-- The three buffers a kernel call can reach, as three disjoint blocks (the
 caller passes buffers that do not overlap). -/
structure Mem where
  A : Buf
  B : Buf
  C : Buf

/-- Kernel of the distributed file, lines 6-15, as a transformer of the whole
 reachable memory: the loads go to `A`, `B` and `C`, the two stores (lines 9
 and 11) go to `C`. -/
def matrix_multiply_mem (rows n : Nat) (m : Mem) : Option Mem :=
  forLoop (fun i m =>
    forLoop (fun j m => do
      let C ← wr m.C (i * n + j) 0
      forLoop (fun k m => do
        let c ← rd m.C (i * n + j)
        let a ← rd m.A (i * n + k)
        let b ← rd m.B (k * n + j)
        let C ← wr m.C (i * n + j) (c + a * b)
        pure ⟨m.A, m.B, C⟩) n ⟨m.A, m.B, C⟩) n m) rows m

end Distributed

/-! ### The programs in `double` arithmetic

The cells still hold integers, and every arithmetic result is passed through
`rnd`, the rounding of the floating-point format. `rnd` is a parameter: the
development only uses that it returns an exactly representable value as it
is. Copies (broadcast, scatter, gather, print) do no arithmetic. -/

namespace Distributed

/-- Kernel of the distributed file, lines 6-15, with the product and the sum
 of line 11 rounded. -/
def matrix_multiply_fl (rnd : Int → Int) (rows n : Nat) (A B C : Buf) : Option Buf :=
  forLoop (fun i C =>
    forLoop (fun j C => do
      let C ← wr C (i * n + j) 0
      forLoop (fun k C => do
        let c ← rd C (i * n + j)
        let a ← rd A (i * n + k)
        let b ← rd B (k * n + j)
        wr C (i * n + j) (rnd (c + rnd (a * b)))) n C) n C) rows C

/-- Root initialisation, lines 35-40, with the `int` values `i + j` and
 `i - j` converted to `double`. -/
def init_matrices_fl (rnd : Int → Int) (n : Nat) (A B : Buf) : Option (Buf × Buf) :=
  forLoop (fun i AB =>
    forLoop (fun j AB => do
      let A ← wr AB.1 (i * n + j) (rnd ((i : Int) + (j : Int)))
      let B ← wr AB.2 (i * n + j) (rnd ((i : Int) - (j : Int)))
      pure (A, B)) n AB) n (A, B)

/-- Lines 44-60 as seen by process `rank`, in `double` arithmetic. -/
def rank_local_C_fl (rnd : Int → Int) (n world_size : Nat) (A B : Buf) (g : Junk)
    (rank : Nat) : Option Buf := do
  let B_r ← rank_B n B g rank
  let local_A ← rank_local_A n world_size A g rank
  matrix_multiply_fl rnd (rows_per_proc n world_size) n local_A B_r
    (malloc (chunk_count n world_size) (g.local_C rank))

/-- Lines 43-67 in `double` arithmetic. -/
def pipeline_fl (rnd : Int → Int) (n world_size : Nat) (A B C : Buf) (g : Junk) :
    Option Buf := do
  let sends ← all_ranks world_size (rank_local_C_fl rnd n world_size A B g)
  MPI_Gather sends (chunk_count n world_size) C

/-- Lines 43-93 in `double` arithmetic. -/
def run_fl (rnd : Int → Int) (n world_size : Nat) (A B : Buf) (g : Junk) : Option Output := do
  let C ← pipeline_fl rnd n world_size A B (malloc (n * n) g.C) g
  let printed ← print_matrix n C
  pure ⟨printed, 0⟩

/-- The program `main` in `double` arithmetic. -/
def main_fl (rnd : Int → Int) (n world_size : Nat) (g : Junk) : Option Output := do
  let AB ← init_matrices_fl rnd n (malloc (n * n) g.A) (malloc (n * n) g.B)
  run_fl rnd n world_size AB.1 AB.2 g

end Distributed

namespace Sequential

/-- Kernel of the sequential file, lines 6-15, with the product and the sum of
 line 11 rounded. -/
def matrix_multiply_fl (rnd : Int → Int) (n : Nat) (A B C : Mat) : Option Mat :=
  forLoop (fun i C =>
    forLoop (fun j C => do
      let C ← wr2 C i j 0
      forLoop (fun k C => do
        let c ← rd2 C i j
        let a ← rd2 A i k
        let b ← rd2 B k j
        wr2 C i j (rnd (c + rnd (a * b)))) n C) n C) n C

/-- Lines 29-34 with the `int` values converted to `double`. -/
def init_matrices_fl (rnd : Int → Int) (n : Nat) (A B : Mat) : Option (Mat × Mat) :=
  forLoop (fun i AB =>
    forLoop (fun j AB => do
      let A ← wr2 AB.1 i j (rnd ((i : Int) + (j : Int)))
      let B ← wr2 AB.2 i j (rnd ((i : Int) - (j : Int)))
      pure (A, B)) n AB) n (A, B)

/-- The sequential program `main` in `double` arithmetic. -/
def main_fl (rnd : Int → Int) (n : Nat) (g : Junk) : Option (List (List Int) × Int) := do
  let AB ← init_matrices_fl rnd n (alloc_matrix n g.A) (alloc_matrix n g.B)
  let C ← matrix_multiply_fl rnd n AB.1 AB.2 (alloc_matrix n g.C)
  let printed ← print_matrix n C
  pure (printed, 0)

end Sequential

/-! ### The distributed program with `int` index arithmetic

In the source `n`, `world_size`, the loop counters and every count and index
expression are C `int`. The `_int` variants below evaluate each of those
expressions in 32-bit `int` arithmetic: an expression whose value does not
fit makes the computation `none` (signed overflow is undefined). The further
multiplication by `sizeof(double)` in the `malloc` arguments is done in
`size_t` and is not an `int` expression. -/

/-- Largest value of a 32-bit C `int`. -/
def INT_MAX : Nat := 2147483647

/-- The value of an `int` expression built from non-negative operands with
 `+`, `*` and `/`: defined when the value fits in `int`. Every intermediate
 value of such an expression is at most the largest product or sum in it,
 which is the value checked. -/
def int_expr (v : Nat) : Option Nat := if v ≤ INT_MAX then some v else none

/-- The value of a signed `int` expression (`i + j`, `i - j`). -/
def int_sexpr (z : Int) : Option Int :=
  if -(INT_MAX : Int) - 1 ≤ z ∧ z ≤ (INT_MAX : Int) then some z else none

namespace Distributed

/-- Kernel, lines 6-15, with the index expressions `i * n + j`, `i * n + k`,
 `k * n + j` evaluated in `int`. -/
def matrix_multiply_int (rows n : Nat) (A B C : Buf) : Option Buf :=
  forLoop (fun i C =>
    forLoop (fun j C => do
      let ij ← int_expr (i * n + j)
      let C ← wr C ij 0
      forLoop (fun k C => do
        let ij ← int_expr (i * n + j)
        let ik ← int_expr (i * n + k)
        let kj ← int_expr (k * n + j)
        let c ← rd C ij
        let a ← rd A ik
        let b ← rd B kj
        wr C ij (c + a * b)) n C) n C) rows C

/-- Root initialisation, lines 35-40, with `i * n + j`, `i + j` and `i - j`
 evaluated in `int`. -/
def init_matrices_int (n : Nat) (A B : Buf) : Option (Buf × Buf) :=
  forLoop (fun i AB =>
    forLoop (fun j AB => do
      let ij ← int_expr (i * n + j)
      let a ← int_sexpr ((i : Int) + (j : Int))
      let A ← wr AB.1 ij a
      let b ← int_sexpr ((i : Int) - (j : Int))
      let B ← wr AB.2 ij b
      pure (A, B)) n AB) n (A, B)

/-- Lines 44-47 as seen by process `rank`, with the count `n * n` in `int`. -/
def rank_B_int (n : Nat) (B : Buf) (g : Junk) (rank : Nat) : Option Buf := do
  let nn ← int_expr (n * n)
  if rank = 0 then MPI_Bcast B nn B
  else MPI_Bcast B nn (malloc nn (g.B_rank rank))

/-- Lines 50 and 54 as seen by process `rank`, with the count
 `n * n / world_size` in `int`. -/
def rank_local_A_int (n world_size : Nat) (A : Buf) (g : Junk) (rank : Nat) : Option Buf := do
  let nn ← int_expr (n * n)
  MPI_Scatter A (nn / world_size) world_size rank (malloc (nn / world_size) (g.local_A rank))

/-- Lines 44-60 as seen by process `rank`, with every count in `int`. -/
def rank_local_C_int (n world_size : Nat) (A B : Buf) (g : Junk) (rank : Nat) :
    Option Buf := do
  let B_r ← rank_B_int n B g rank
  let nn ← int_expr (n * n)
  let local_A ← rank_local_A_int n world_size A g rank
  matrix_multiply_int (n / world_size) n local_A B_r (malloc (nn / world_size) (g.local_C rank))

/-- Lines 43-67 with every count in `int`. -/
def pipeline_int (n world_size : Nat) (A B C : Buf) (g : Junk) : Option Buf := do
  let sends ← all_ranks world_size (rank_local_C_int n world_size A B g)
  let nn ← int_expr (n * n)
  MPI_Gather sends (nn / world_size) C

/-- Lines 72-77 with the index `i * n + j` in `int`. -/
def print_matrix_int (n : Nat) (C : Buf) : Option (List (List Int)) :=
  forLoop (fun i out =>
    (forLoop (fun j line => do
      let ij ← int_expr (i * n + j)
      let v ← rd C ij
      pure (line ++ [v])) n []).map
      (fun line => out ++ [line])) n []

/-- Lines 43-93 with `int` arithmetic, started with operands `A`, `B` and the
 block `C` on the root. -/
def run_int (n world_size : Nat) (A B C : Buf) (g : Junk) : Option Output := do
  let C' ← pipeline_int n world_size A B C g
  let printed ← print_matrix_int n C'
  pure ⟨printed, 0⟩

/-- The program `main` with `int` arithmetic: `int n` (line 25), the three
 allocations of `n * n` cells on the root (lines 30-32), the initialisation
 and the rest. -/
def main_int (n world_size : Nat) (g : Junk) : Option Output := do
  let _ ← int_expr n
  let nn ← int_expr (n * n)
  let AB ← init_matrices_int n (malloc nn g.A) (malloc nn g.B)
  run_int n world_size AB.1 AB.2 (malloc nn g.C) g

end Distributed

/-- A rounding used in concrete evaluations: exact on integers of absolute
 value at most `2^53`, and dropping the last bit above. -/
def rnd53 (z : Int) : Int := if |z| ≤ 2 ^ 53 then z else z / 2 * 2

/-- The `n` printed lines for a flat row-major `n × n` buffer. -/
def rows_of (n : Nat) (C : Buf) : List (List Int) :=
  (List.range n).map (fun i => (List.range n).map (fun j => C.getD (i * n + j) 0))

/-- Specification value, written after the closed form the claim gives for
 the built-in inputs: `N(N-1)(2N-1)/6 + (i - j) * N(N-1)/2 - N*i*j`. -/
def closed_form_cell (n i j : Nat) : Int :=
  (n : Int) * ((n : Int) - 1) * (2 * (n : Int) - 1) / 6 +
    ((i : Int) - (j : Int)) * ((n : Int) * ((n : Int) - 1) / 2) -
    (n : Int) * (i : Int) * (j : Int)

/-- Junk content for the three matrices of the sequential program: every cell
 holds 7. -/
def seq_junk7 : Sequential.Junk :=
  { A := fun _ _ => 7, B := fun _ _ => 7, C := fun _ _ => 7 }

/-- Junk stream used in concrete evaluations: every cell holds 1. -/
def junk1 : Distributed.Junk :=
  { A := fun _ => 1, B := fun _ => 1, C := fun _ => 1,
    B_rank := fun _ _ => 1, local_A := fun _ _ => 1, local_C := fun _ _ => 1 }

/-- Junk stream used in concrete evaluations: every cell holds 7. -/
def junk7 : Distributed.Junk :=
  { A := fun _ => 7, B := fun _ => 7, C := fun _ => 7,
    B_rank := fun _ _ => 7, local_A := fun _ _ => 7, local_C := fun _ _ => 7 }

/-! ## Counted loops and checked memory accesses -/

theorem forLoop_succ {σ : Type} (body : Nat → σ → Option σ) (n : Nat) (s : σ) :
    forLoop body (n + 1) s = (forLoop body n s).bind (body n) := rfl

/-- Hoare-style rule for a counted loop: an invariant that holds on entry and
 is re-established by every iteration (which must not fail) holds on exit,
 and the loop does not fail. -/
theorem forLoop_inv {σ : Type} (body : Nat → σ → Option σ) (Inv : Nat → σ → Prop) :
    ∀ (n : Nat) (s : σ), Inv 0 s →
      (∀ k t, k < n → Inv k t → ∃ t', body k t = some t' ∧ Inv (k + 1) t') →
      ∃ s', forLoop body n s = some s' ∧ Inv n s' := by
  intro n
  induction n with
  | zero => intro s h0 _; exact ⟨s, rfl, h0⟩
  | succ m ih =>
    intro s h0 hstep
    obtain ⟨s1, hs1, hinv1⟩ := ih s h0 (fun k t hk ht => hstep k t (Nat.lt_succ_of_lt hk) ht)
    obtain ⟨s2, hs2, hinv2⟩ := hstep m s1 (Nat.lt_succ_self m) hinv1
    exact ⟨s2, by rw [forLoop_succ, hs1]; exact hs2, hinv2⟩

theorem rd_of_lt {b : Buf} {i : Nat} (h : i < b.length) : rd b i = some (b.getD i 0) := by
  simp [rd, List.getD, List.getElem?_eq_getElem h]

theorem wr_of_lt {b : Buf} {i : Nat} (v : Int) (h : i < b.length) :
    wr b i v = some (b.set i v) := by
  simp [wr, h]

theorem getD_of_getElem? {b : Buf} {i : Nat} {v : Int} (h : b[i]? = some v) :
    b.getD i 0 = v := by
  simp [List.getD, h]

theorem getElem?_eq_some_getD {b : Buf} {i : Nat} (h : i < b.length) :
    b[i]? = some (b.getD i 0) := by
  simp [List.getD, List.getElem?_eq_getElem h]

/-- Row-major index arithmetic: cell `(i, j)` of a block of `r` rows of width
 `n` lies inside the block. -/
theorem idx_lt {i j r n : Nat} (hi : i < r) (hj : j < n) : i * n + j < r * n := by
  have h : (i + 1) * n ≤ r * n := Nat.mul_le_mul_right n hi
  rw [Nat.add_mul, Nat.one_mul] at h
  omega

theorem splice_getElem? (s src : List Int) (off cnt t : Nat)
    (hs : off + cnt ≤ s.length) (hc : cnt ≤ src.length) :
    (s.take off ++ src.take cnt ++ s.drop (off + cnt))[t]? =
      if t < off then (s[t]?) else if t < off + cnt then (src[t - off]?) else (s[t]?) := by
  have l1 : (s.take off).length = off := by simp; omega
  have l2 : (src.take cnt).length = cnt := by simp; omega
  by_cases h1 : t < off
  · rw [if_pos h1, List.append_assoc, List.getElem?_append_left (by omega), List.getElem?_take_of_lt h1]
  · rw [if_neg h1, List.append_assoc, List.getElem?_append_right (by omega), l1]
    by_cases h2 : t < off + cnt
    · rw [if_pos h2, List.getElem?_append_left (by omega), List.getElem?_take_of_lt (by omega)]
    · rw [if_neg h2, List.getElem?_append_right (by omega), l2, List.getElem?_drop]
      congr 1
      omega

theorem splice_length (s src : List Int) (off cnt : Nat)
    (hs : off + cnt ≤ s.length) (hc : cnt ≤ src.length) :
    (s.take off ++ src.take cnt ++ s.drop (off + cnt)).length = s.length := by
  simp
  omega

theorem chunk_getElem? (s : List Int) (off cnt u : Nat) (hu : u < cnt) :
    ((s.drop off).take cnt)[u]? = s[off + u]? := by
  rw [List.getElem?_take_of_lt hu, List.getElem?_drop]

theorem rows_mul_le_chunk (n P : Nat) (hP : 1 ≤ P) : n / P * n ≤ n * n / P := by
  rw [Nat.le_div_iff_mul_le (by omega)]
  calc n / P * n * P = (n / P * P) * n := by ring
    _ ≤ n * n := Nat.mul_le_mul_right n (Nat.div_mul_le_self n P)

theorem chunks_le (n P : Nat) : P * (n * n / P) ≤ n * n := Nat.mul_div_le (n * n) P

theorem malloc_length (count : Nat) (junk : Nat → Int) : (malloc count junk).length = count := by
  simp [malloc]

theorem malloc_getElem? (count : Nat) (junk : Nat → Int) (t : Nat) (h : t < count) :
    (malloc count junk)[t]? = some (junk t) := by
  simp [malloc, List.getElem?_range h]

theorem getD_congr {a b : Buf} {i j : Nat} (h : a[i]? = b[j]?) : a.getD i 0 = b.getD j 0 := by
  simp [List.getD, h]

namespace Distributed

/-- The accumulation loop over `k` (lines 10-12) adds the `n` products to the
 cell and touches no other cell. -/
theorem kLoop_spec (n : Nat) (A B C : Buf) (i j : Nat)
    (hA : (i + 1) * n ≤ A.length) (hB : n * n ≤ B.length) (hj : j < n)
    (hC : i * n + j < C.length) :
    ∃ C', forLoop (fun k C => do
        let c ← rd C (i * n + j)
        let a ← rd A (i * n + k)
        let b ← rd B (k * n + j)
        wr C (i * n + j) (c + a * b)) n C = some C' ∧
      C'.length = C.length ∧
      C'[i * n + j]? = some (C.getD (i * n + j) 0 + dot n A B i j) ∧
      ∀ t, t ≠ i * n + j → C'[t]? = C[t]? := by
  have key := forLoop_inv (fun k C => do
        let c ← rd C (i * n + j)
        let a ← rd A (i * n + k)
        let b ← rd B (k * n + j)
        wr C (i * n + j) (c + a * b))
    (fun m s => s.length = C.length ∧
      s[i * n + j]? = some (C.getD (i * n + j) 0 +
        ∑ k ∈ Finset.range m, A.getD (i * n + k) 0 * B.getD (k * n + j) 0) ∧
      ∀ t, t ≠ i * n + j → s[t]? = C[t]?) n C
    ⟨rfl, by simpa using getElem?_eq_some_getD hC, fun _ _ => rfl⟩
    (by
      intro k s hk ⟨hlen, hcell, hframe⟩
      have hkA : i * n + k < A.length := lt_of_lt_of_le (idx_lt (Nat.lt_succ_self i) hk) hA
      have hkB : k * n + j < B.length := lt_of_lt_of_le (idx_lt hk hj) hB
      have hs : i * n + j < s.length := by rw [hlen]; exact hC
      refine ⟨s.set (i * n + j) (s.getD (i * n + j) 0 + A.getD (i * n + k) 0 * B.getD (k * n + j) 0),
        ?_, ?_, ?_, ?_⟩
      · simp only [rd_of_lt hs, rd_of_lt hkA, rd_of_lt hkB, Option.bind_eq_bind, Option.some_bind]
        exact wr_of_lt _ hs
      · simp [hlen]
      · rw [List.getElem?_set_self hs, getD_of_getElem? hcell, Finset.sum_range_succ, add_assoc]
      · intro t ht
        rw [List.getElem?_set_ne (Ne.symm ht)]
        exact hframe t ht)
  obtain ⟨C', h1, h2, h3, h4⟩ := key
  exact ⟨C', h1, h2, h3, h4⟩

/-- One pass of the loop over `j` (lines 8-13) fills row `i` of the output
 block and touches no other row. -/
theorem jLoop_spec (n : Nat) (A B C : Buf) (i : Nat)
    (hA : (i + 1) * n ≤ A.length) (hB : n * n ≤ B.length)
    (hC : (i + 1) * n ≤ C.length) :
    ∃ C', forLoop (fun j C => do
        let C ← wr C (i * n + j) 0
        forLoop (fun k C => do
          let c ← rd C (i * n + j)
          let a ← rd A (i * n + k)
          let b ← rd B (k * n + j)
          wr C (i * n + j) (c + a * b)) n C) n C = some C' ∧
      C'.length = C.length ∧
      (∀ j, j < n → C'[i * n + j]? = some (dot n A B i j)) ∧
      ∀ t, (t < i * n ∨ (i + 1) * n ≤ t) → C'[t]? = C[t]? := by
  have key := forLoop_inv (fun j C => do
        let C ← wr C (i * n + j) 0
        forLoop (fun k C => do
          let c ← rd C (i * n + j)
          let a ← rd A (i * n + k)
          let b ← rd B (k * n + j)
          wr C (i * n + j) (c + a * b)) n C)
    (fun m s => s.length = C.length ∧
      (∀ j, j < m → s[i * n + j]? = some (dot n A B i j)) ∧
      ∀ t, (t < i * n ∨ i * n + m ≤ t) → s[t]? = C[t]?) n C
    ⟨rfl, fun j hj => absurd hj (Nat.not_lt_zero j), fun _ _ => rfl⟩
    (by
      intro j s hj ⟨hlen, hdone, hframe⟩
      have hjC : i * n + j < C.length := lt_of_lt_of_le (idx_lt (Nat.lt_succ_self i) hj) hC
      have hs : i * n + j < s.length := by rw [hlen]; exact hjC
      have hs0 : i * n + j < (s.set (i * n + j) 0).length := by simpa using hs
      obtain ⟨C', h1, h2, h3, h4⟩ := kLoop_spec n A B (s.set (i * n + j) 0) i j hA hB hj hs0
      refine ⟨C', ?_, ?_, ?_, ?_⟩
      · simp only [wr_of_lt 0 hs, Option.bind_eq_bind, Option.some_bind]
        exact h1
      · rw [h2]; simpa using hlen
      · intro j' hj'
        rcases Nat.lt_succ_iff_lt_or_eq.mp hj' with hlt | heq
        · rw [h4 _ (by omega), List.getElem?_set_ne (by omega)]
          exact hdone j' hlt
        · subst heq
          rw [h3, getD_of_getElem? (List.getElem?_set_self hs), zero_add]
      · intro t ht
        rw [h4 t (by omega), List.getElem?_set_ne (by omega)]
        exact hframe t (by omega))
  obtain ⟨C', h1, h2, h3, h4⟩ := key
  refine ⟨C', h1, h2, h3, fun t ht => h4 t ?_⟩
  rw [Nat.add_mul, Nat.one_mul] at ht
  exact ht

/-- Functional specification of the kernel: on buffers that are large enough
 the call returns, every cell `(i, j)` of the `rows × n` output block holds
 the sum of the `n` products started from zero, the length of `C` is
 unchanged and the cells behind the block keep their content. -/
theorem matrix_multiply_spec (rows n : Nat) (A B C : Buf)
    (hA : rows * n ≤ A.length) (hB : n * n ≤ B.length) (hC : rows * n ≤ C.length) :
    ∃ C', matrix_multiply rows n A B C = some C' ∧
      C'.length = C.length ∧
      (∀ i j, i < rows → j < n → C'[i * n + j]? = some (dot n A B i j)) ∧
      ∀ t, rows * n ≤ t → C'[t]? = C[t]? := by
  have key := forLoop_inv (fun i C =>
      forLoop (fun j C => do
        let C ← wr C (i * n + j) 0
        forLoop (fun k C => do
          let c ← rd C (i * n + j)
          let a ← rd A (i * n + k)
          let b ← rd B (k * n + j)
          wr C (i * n + j) (c + a * b)) n C) n C)
    (fun m s => s.length = C.length ∧
      (∀ i j, i < m → j < n → s[i * n + j]? = some (dot n A B i j)) ∧
      ∀ t, m * n ≤ t → s[t]? = C[t]?) rows C
    ⟨rfl, fun i _ hi _ => absurd hi (Nat.not_lt_zero i), fun _ _ => rfl⟩
    (by
      intro i s hi ⟨hlen, hdone, hframe⟩
      have hrow : (i + 1) * n ≤ rows * n := Nat.mul_le_mul_right n hi
      obtain ⟨C', h1, h2, h3, h4⟩ := jLoop_spec n A B s i (le_trans hrow hA) hB
        (by rw [hlen]; exact le_trans hrow hC)
      refine ⟨C', h1, by rw [h2, hlen], ?_, ?_⟩
      · intro i' j hi' hj
        rcases Nat.lt_succ_iff_lt_or_eq.mp hi' with hlt | heq
        · rw [h4 _ (Or.inl (idx_lt hlt hj))]
          exact hdone i' j hlt hj
        · subst heq
          exact h3 j hj
      · intro t ht
        rw [h4 t (Or.inr ht)]
        refine hframe t (le_trans ?_ ht)
        exact Nat.mul_le_mul_right n (Nat.le_succ i))
  exact key

/-- After the broadcast every rank holds the root's `B`. -/
theorem rank_B_eq (n : Nat) (B : Buf) (g : Junk) (rank : Nat) (hB : B.length = n * n) :
    rank_B n B g rank = some B := by
  have htake : B.take (n * n) = B := List.take_of_length_le (by rw [hB])
  unfold rank_B MPI_Bcast bcast_count
  split
  · rw [if_pos ⟨by rw [hB], by rw [hB]⟩, List.take_append_drop]
  · rw [if_pos ⟨by rw [hB], by rw [malloc_length]⟩, htake,
      List.drop_of_length_le (by rw [malloc_length]), List.append_nil]

/-- After the scatter rank `r` holds cells `r * count .. r * count + count - 1`
 of the root's `A`. -/
theorem rank_local_A_spec (n world_size : Nat) (A : Buf) (g : Junk) (r : Nat)
    (hA : A.length = n * n) (hr : r < world_size) :
    ∃ L, rank_local_A n world_size A g r = some L ∧
      L.length = chunk_count n world_size ∧
      ∀ u, u < chunk_count n world_size → L[u]? = A[r * chunk_count n world_size + u]? := by
  have hfit : world_size * chunk_count n world_size ≤ n * n := chunks_le n world_size
  have hr1 : (r + 1) * chunk_count n world_size ≤ world_size * chunk_count n world_size :=
    Nat.mul_le_mul_right _ hr
  rw [Nat.add_mul, Nat.one_mul] at hr1
  refine ⟨(A.drop (r * chunk_count n world_size)).take (chunk_count n world_size), ?_, ?_, ?_⟩
  · unfold rank_local_A MPI_Scatter
    rw [if_pos ⟨by rw [hA]; exact hfit, by rw [malloc_length]⟩]
    simp [malloc_length]
  · simp [hA]; omega
  · intro u hu
    exact chunk_getElem? A _ _ u hu

/-- What rank `r` sends to the gather: the first `(n / world_size) * n` cells
 are the products of its chunk of `A` with `B`, the remaining cells of
 `local_C` were never written and still hold their initial content. -/
theorem rank_local_C_spec (n world_size : Nat) (A B : Buf) (g : Junk) (r : Nat)
    (hP : 1 ≤ world_size) (hA : A.length = n * n) (hB : B.length = n * n)
    (hr : r < world_size) :
    ∃ L, rank_local_C n world_size A B g r = some L ∧
      L.length = chunk_count n world_size ∧
      (∀ t j, t < n / world_size → j < n →
        L[t * n + j]? = some (∑ k ∈ Finset.range n,
          A.getD (r * chunk_count n world_size + (t * n + k)) 0 * B.getD (k * n + j) 0)) ∧
      ∀ u, n / world_size * n ≤ u → u < chunk_count n world_size →
        L[u]? = some (g.local_C r u) := by
  obtain ⟨LA, hLA, hLAlen, hLAget⟩ := rank_local_A_spec n world_size A g r hA hr
  have hrows : n / world_size * n ≤ chunk_count n world_size := rows_mul_le_chunk n world_size hP
  obtain ⟨L, h1, h2, h3, h4⟩ := matrix_multiply_spec (n / world_size) n LA B
    (malloc (chunk_count n world_size) (g.local_C r))
    (by rw [hLAlen]; exact hrows) (by rw [hB]) (by rw [malloc_length]; exact hrows)
  refine ⟨L, ?_, ?_, ?_, ?_⟩
  · unfold rank_local_C rows_per_proc
    simp only [rank_B_eq n B g r hB, hLA, Option.bind_eq_bind, Option.some_bind]
    exact h1
  · rw [h2, malloc_length]
  · intro t j ht hj
    rw [h3 t j ht hj]
    unfold dot
    congr 1
    refine Finset.sum_congr rfl (fun k hk => ?_)
    have hk' : k < n := Finset.mem_range.mp hk
    rw [getD_congr (hLAget (t * n + k) (lt_of_lt_of_le (idx_lt ht hk') hrows))]
  · intro u hu1 hu2
    rw [h4 u hu1, malloc_getElem? _ _ u hu2]

/-- Collecting the send buffers of all ranks succeeds when every rank's
 computation does, and yields them in rank order. -/
theorem all_ranks_spec (world_size : Nat) (f : Nat → Option Buf)
    (hf : ∀ r, r < world_size → ∃ b, f r = some b) :
    ∃ L, all_ranks world_size f = some L ∧ L.length = world_size ∧
      ∀ r, r < world_size → L[r]? = f r := by
  have key := forLoop_inv (fun r acc => (f r).map (fun b => acc ++ [b]))
    (fun m (acc : List Buf) => acc.length = m ∧ ∀ r, r < m → acc[r]? = f r) world_size []
    ⟨rfl, fun r hr => absurd hr (Nat.not_lt_zero r)⟩
    (by
      intro k acc hk ⟨hlen, hget⟩
      obtain ⟨b, hb⟩ := hf k hk
      refine ⟨acc ++ [b], by simp [hb], by simp [hlen], ?_⟩
      intro r hr
      rcases Nat.lt_succ_iff_lt_or_eq.mp hr with hlt | heq
      · rw [List.getElem?_append_left (by omega)]
        exact hget r hlt
      · subst heq
        rw [List.getElem?_append_right (by omega), hb]
        simp [hlen])
  exact key

/-- The gather places the first `count` cells of rank `r`'s send buffer at
 offset `r * count` of the receive buffer and leaves every cell from
 `sends.length * count` on untouched. -/
theorem MPI_Gather_spec (sends : List Buf) (count : Nat) (recv : Buf)
    (hs : ∀ r, r < sends.length → count ≤ (sends.getD r []).length)
    (hrecv : sends.length * count ≤ recv.length) :
    ∃ C', MPI_Gather sends count recv = some C' ∧ C'.length = recv.length ∧
      (∀ r u, r < sends.length → u < count → C'[r * count + u]? = (sends.getD r [])[u]?) ∧
      ∀ t, sends.length * count ≤ t → C'[t]? = recv[t]? := by
  have key := forLoop_inv (fun r recv => do
      let s ← sends[r]?
      if count ≤ s.length ∧ r * count + count ≤ recv.length then
        some (recv.take (r * count) ++ s.take count ++ recv.drop (r * count + count))
      else none)
    (fun m (acc : Buf) => acc.length = recv.length ∧
      (∀ r u, r < m → u < count → acc[r * count + u]? = (sends.getD r [])[u]?) ∧
      ∀ t, m * count ≤ t → acc[t]? = recv[t]?) sends.length recv
    ⟨rfl, fun r _ hr _ => absurd hr (Nat.not_lt_zero r), fun _ _ => rfl⟩
    (by
      intro k acc hk ⟨hlen, hdone, hframe⟩
      have hsk : sends[k]? = some (sends.getD k []) := by
        simp [List.getD, List.getElem?_eq_getElem hk]
      have hcnt : count ≤ (sends.getD k []).length := hs k hk
      have hfit : k * count + count ≤ acc.length := by
        have h := Nat.mul_le_mul_right count hk
        rw [Nat.succ_mul] at h
        rw [hlen]; omega
      refine ⟨acc.take (k * count) ++ (sends.getD k []).take count ++
        acc.drop (k * count + count), ?_, ?_, ?_, ?_⟩
      · simp only [hsk, Option.bind_eq_bind, Option.some_bind]
        rw [if_pos ⟨hcnt, hfit⟩]
      · rw [splice_length _ _ _ _ hfit hcnt, hlen]
      · intro r u hr hu
        rw [splice_getElem? _ _ _ _ _ hfit hcnt]
        rcases Nat.lt_succ_iff_lt_or_eq.mp hr with hlt | heq
        · have h := idx_lt hlt hu
          rw [if_pos h]
          exact hdone r u hlt hu
        · subst heq
          rw [if_neg (by omega), if_pos (by omega)]
          congr 1
          omega
      · intro t ht
        rw [Nat.add_mul, Nat.one_mul] at ht
        rw [splice_getElem? _ _ _ _ _ hfit hcnt, if_neg (by omega), if_neg (by omega)]
        exact hframe t (by omega))
  exact key

/-- Content of the root's `C` after the gather, for every process count:
 each rank's chunk starts with the `(n / world_size) * n` cells its kernel
 call computed from its chunk of `A`, continues with the never-written tail
 of its `local_C`, and the cells of `C` behind the last chunk are untouched. -/
theorem pipeline_spec (n world_size : Nat) (A B C : Buf) (g : Junk)
    (hP : 1 ≤ world_size) (hA : A.length = n * n) (hB : B.length = n * n)
    (hC : C.length = n * n) :
    ∃ C', pipeline n world_size A B C g = some C' ∧ C'.length = n * n ∧
      (∀ r t j, r < world_size → t < n / world_size → j < n →
        C'[r * chunk_count n world_size + (t * n + j)]? = some (∑ k ∈ Finset.range n,
          A.getD (r * chunk_count n world_size + (t * n + k)) 0 * B.getD (k * n + j) 0)) ∧
      (∀ r u, r < world_size → n / world_size * n ≤ u → u < chunk_count n world_size →
        C'[r * chunk_count n world_size + u]? = some (g.local_C r u)) ∧
      ∀ t, world_size * chunk_count n world_size ≤ t → C'[t]? = C[t]? := by
  obtain ⟨L, hL, hLlen, hLget⟩ := all_ranks_spec world_size (rank_local_C n world_size A B g)
    (fun r hr => by
      obtain ⟨b, hb, _⟩ := rank_local_C_spec n world_size A B g r hP hA hB hr
      exact ⟨b, hb⟩)
  have hLr : ∀ r, r < world_size → rank_local_C n world_size A B g r = some (L.getD r []) := by
    intro r hr
    rw [← hLget r hr]
    simp [List.getD, List.getElem?_eq_getElem (by omega : r < L.length)]
  have hrows : n / world_size * n ≤ chunk_count n world_size := rows_mul_le_chunk n world_size hP
  obtain ⟨C', h1, h2, h3, h4⟩ := MPI_Gather_spec L (chunk_count n world_size) C
    (fun r hr => by
      obtain ⟨b, hb, hblen, _⟩ := rank_local_C_spec n world_size A B g r hP hA hB (by omega)
      rw [hLr r (by omega)] at hb
      rw [Option.some.inj hb, hblen])
    (by rw [hLlen, hC]; exact chunks_le n world_size)
  rw [hLlen] at h3 h4
  refine ⟨C', ?_, by rw [h2, hC], ?_, ?_, h4⟩
  · unfold pipeline
    simp only [hL, Option.bind_eq_bind, Option.some_bind]
    exact h1
  · intro r t j hr ht hj
    obtain ⟨b, hb, _, hbget, _⟩ := rank_local_C_spec n world_size A B g r hP hA hB hr
    rw [hLr r hr] at hb
    rw [h3 r (t * n + j) hr (lt_of_lt_of_le (idx_lt ht hj) hrows), Option.some.inj hb]
    exact hbget t j ht hj
  · intro r u hr hu1 hu2
    obtain ⟨b, hb, _, _, hbjunk⟩ := rank_local_C_spec n world_size A B g r hP hA hB hr
    rw [hLr r hr] at hb
    rw [h3 r u hr hu2, Option.some.inj hb]
    exact hbjunk u hu1 hu2

/-- When the process count divides the matrix size the chunks are whole rows:
 `n * n / world_size = (n / world_size) * n`. -/
theorem chunk_count_of_dvd (n world_size : Nat) (hP : 1 ≤ world_size) (hdiv : world_size ∣ n) :
    chunk_count n world_size = n / world_size * n := by
  obtain ⟨q, rfl⟩ := hdiv
  unfold chunk_count
  rw [Nat.mul_div_cancel_left q (by omega), Nat.mul_assoc, Nat.mul_div_cancel_left _ (by omega)]

/-- Row `i` of an `n × n` matrix lies in the chunk of rank `i / (n / P)` at
 local row `i % (n / P)`, when `P` divides `n`. -/
theorem row_split (n world_size i : Nat) (hP : 1 ≤ world_size) (hdiv : world_size ∣ n)
    (hi : i < n) :
    i / (n / world_size) < world_size ∧ i % (n / world_size) < n / world_size ∧
      ∀ j, i / (n / world_size) * chunk_count n world_size + (i % (n / world_size) * n + j) =
        i * n + j := by
  have hc := chunk_count_of_dvd n world_size hP hdiv
  obtain ⟨q, rfl⟩ := hdiv
  rw [Nat.mul_div_cancel_left q (by omega)] at hc ⊢
  have hq : 0 < q := by
    rcases Nat.eq_zero_or_pos q with h | h
    · subst h; simp at hi
    · exact h
  refine ⟨?_, Nat.mod_lt i hq, ?_⟩
  · rw [Nat.div_lt_iff_lt_mul hq]; exact hi
  · intro j
    rw [hc]
    have h := Nat.div_add_mod i q
    calc i / q * (q * (world_size * q)) + (i % q * (world_size * q) + j)
        = (q * (i / q) + i % q) * (world_size * q) + j := by ring
      _ = i * (world_size * q) + j := by rw [h]

/-- Content of the root's `C` after the gather when the process count divides
 the matrix size: the full product, cell by cell. -/
theorem pipeline_div_spec (n world_size : Nat) (A B C : Buf) (g : Junk)
    (hP : 1 ≤ world_size) (hdiv : world_size ∣ n) (hA : A.length = n * n)
    (hB : B.length = n * n) (hC : C.length = n * n) :
    ∃ C', pipeline n world_size A B C g = some C' ∧ C'.length = n * n ∧
      ∀ i j, i < n → j < n → C'[i * n + j]? = some (dot n A B i j) := by
  obtain ⟨C', h1, h2, h3, _, _⟩ := pipeline_spec n world_size A B C g hP hA hB hC
  refine ⟨C', h1, h2, ?_⟩
  intro i j hi hj
  obtain ⟨hr, ht, hidx⟩ := row_split n world_size i hP hdiv hi
  have h := h3 _ _ j hr ht hj
  rw [hidx j] at h
  rw [h]
  unfold dot
  congr 1
  refine Finset.sum_congr rfl (fun k _ => ?_)
  rw [hidx k]

/-- The print loop outputs the `n` rows of `C`, each of `n` cells, in order. -/
theorem print_matrix_spec (n : Nat) (C : Buf) (hC : n * n ≤ C.length) :
    print_matrix n C = some ((List.range n).map (fun i =>
      (List.range n).map (fun j => C.getD (i * n + j) 0))) := by
  have hline : ∀ i, i < n →
      forLoop (fun j line => (rd C (i * n + j)).map (fun v => line ++ [v])) n [] =
        some ((List.range n).map (fun j => C.getD (i * n + j) 0)) := by
    intro i hi
    obtain ⟨l, h1, h2⟩ := forLoop_inv
      (fun j line => (rd C (i * n + j)).map (fun v => line ++ [v]))
      (fun m line => line = (List.range m).map (fun j => C.getD (i * n + j) 0)) n [] rfl
      (by
        intro j line hj hline
        refine ⟨line ++ [C.getD (i * n + j) 0], ?_, ?_⟩
        · dsimp only
          rw [rd_of_lt (lt_of_lt_of_le (idx_lt hi hj) hC)]; rfl
        · dsimp only
          rw [hline, List.range_succ, List.map_append]; rfl)
    rw [h1, h2]
  obtain ⟨out, h1, h2⟩ := forLoop_inv
    (fun i out =>
      (forLoop (fun j line => (rd C (i * n + j)).map (fun v => line ++ [v])) n []).map
        (fun line => out ++ [line]))
    (fun m out => out = (List.range m).map (fun i =>
      (List.range n).map (fun j => C.getD (i * n + j) 0))) n [] rfl
    (by
      intro i out hi hout
      refine ⟨out ++ [(List.range n).map (fun j => C.getD (i * n + j) 0)], ?_, ?_⟩
      · dsimp only
        rw [hline i hi]; rfl
      · dsimp only
        rw [hout, List.range_succ, List.map_append]; rfl)
  unfold print_matrix
  rw [h1, h2]

/-- One pass of the inner initialisation loop writes row `i` of both matrices
 and leaves the rows before it alone. -/
theorem init_row_spec (n : Nat) (A B : Buf) (i : Nat)
    (hA : (i + 1) * n ≤ A.length) (hB : (i + 1) * n ≤ B.length) :
    ∃ A' B', forLoop (fun j (AB : Buf × Buf) => do
        let A ← wr AB.1 (i * n + j) ((i : Int) + (j : Int))
        let B ← wr AB.2 (i * n + j) ((i : Int) - (j : Int))
        pure (A, B)) n (A, B) = some (A', B') ∧
      A'.length = A.length ∧ B'.length = B.length ∧
      (∀ j, j < n → A'[i * n + j]? = some ((i : Int) + (j : Int)) ∧
        B'[i * n + j]? = some ((i : Int) - (j : Int))) ∧
      ∀ t, t < i * n → A'[t]? = A[t]? ∧ B'[t]? = B[t]? := by
  obtain ⟨⟨A', B'⟩, h1, h2, h3, h4, h5⟩ := forLoop_inv (fun j (AB : Buf × Buf) => do
        let A ← wr AB.1 (i * n + j) ((i : Int) + (j : Int))
        let B ← wr AB.2 (i * n + j) ((i : Int) - (j : Int))
        pure (A, B))
    (fun m s => s.1.length = A.length ∧ s.2.length = B.length ∧
      (∀ j, j < m → s.1[i * n + j]? = some ((i : Int) + (j : Int)) ∧
        s.2[i * n + j]? = some ((i : Int) - (j : Int))) ∧
      ∀ t, t < i * n → s.1[t]? = A[t]? ∧ s.2[t]? = B[t]?) n (A, B)
    ⟨rfl, rfl, fun j hj => absurd hj (Nat.not_lt_zero j), fun _ _ => ⟨rfl, rfl⟩⟩
    (by
      intro j s hj ⟨hl1, hl2, hdone, hframe⟩
      have hidx : i * n + j < (i + 1) * n := idx_lt (Nat.lt_succ_self i) hj
      have hs1 : i * n + j < s.1.length := by rw [hl1]; omega
      have hs2 : i * n + j < s.2.length := by rw [hl2]; omega
      refine ⟨(s.1.set (i * n + j) ((i : Int) + (j : Int)),
        s.2.set (i * n + j) ((i : Int) - (j : Int))), ?_, ?_, ?_, ?_, ?_⟩
      · simp only [wr_of_lt _ hs1, wr_of_lt _ hs2, Option.bind_eq_bind, Option.some_bind]
        rfl
      · simpa using hl1
      · simpa using hl2
      · intro j' hj'
        rcases Nat.lt_succ_iff_lt_or_eq.mp hj' with hlt | heq
        · rw [List.getElem?_set_ne (by omega), List.getElem?_set_ne (by omega)]
          exact hdone j' hlt
        · subst heq
          exact ⟨List.getElem?_set_self hs1, List.getElem?_set_self hs2⟩
      · intro t ht
        rw [List.getElem?_set_ne (by omega), List.getElem?_set_ne (by omega)]
        exact hframe t ht)
  exact ⟨A', B', h1, h2, h3, h4, h5⟩

/-- The root's initialisation loops return and leave `A[i*n+j] = i + j` and
 `B[i*n+j] = i - j` for all `i, j < n`. -/
theorem init_matrices_spec (n : Nat) (A B : Buf) (hA : n * n ≤ A.length)
    (hB : n * n ≤ B.length) :
    ∃ A' B', init_matrices n A B = some (A', B') ∧
      A'.length = A.length ∧ B'.length = B.length ∧
      ∀ i j, i < n → j < n → A'[i * n + j]? = some ((i : Int) + (j : Int)) ∧
        B'[i * n + j]? = some ((i : Int) - (j : Int)) := by
  obtain ⟨⟨A', B'⟩, h1, h2, h3, h4⟩ := forLoop_inv (fun i (AB : Buf × Buf) =>
      forLoop (fun j (AB : Buf × Buf) => do
        let A ← wr AB.1 (i * n + j) ((i : Int) + (j : Int))
        let B ← wr AB.2 (i * n + j) ((i : Int) - (j : Int))
        pure (A, B)) n AB)
    (fun m s => s.1.length = A.length ∧ s.2.length = B.length ∧
      ∀ i j, i < m → j < n → s.1[i * n + j]? = some ((i : Int) + (j : Int)) ∧
        s.2[i * n + j]? = some ((i : Int) - (j : Int))) n (A, B)
    ⟨rfl, rfl, fun i _ hi _ => absurd hi (Nat.not_lt_zero i)⟩
    (by
      intro i s hi ⟨hl1, hl2, hdone⟩
      have hrow : (i + 1) * n ≤ n * n := Nat.mul_le_mul_right n hi
      obtain ⟨A', B', k1, k2, k3, k4, k5⟩ := init_row_spec n s.1 s.2 i
        (by rw [hl1]; omega) (by rw [hl2]; omega)
      refine ⟨(A', B'), k1, by rw [k2, hl1], by rw [k3, hl2], ?_⟩
      intro i' j hi' hj
      rcases Nat.lt_succ_iff_lt_or_eq.mp hi' with hlt | heq
      · rw [(k5 _ (idx_lt hlt hj)).1, (k5 _ (idx_lt hlt hj)).2]
        exact hdone i' j hlt hj
      · subst heq
        exact k4 j hj)
  exact ⟨A', B', h1, h2, h3, h4⟩

end Distributed

namespace Sequential

theorem rd2_eq_entry {M : Mat} {i j : Nat} (h : (rd2 M i j).isSome = true) :
    rd2 M i j = some (entry M i j) := by
  obtain ⟨v, hv⟩ := Option.isSome_iff_exists.mp h
  simp [entry, hv]

theorem entry_of_rd2 {M : Mat} {i j : Nat} {v : Int} (h : rd2 M i j = some v) :
    entry M i j = v := by
  simp [entry, h]

/-- A checked write to an existing cell succeeds, stores the value and
 changes no other cell. -/
theorem wr2_spec (M : Mat) (i j : Nat) (v : Int) (h : (rd2 M i j).isSome = true) :
    ∃ M', wr2 M i j v = some M' ∧ rd2 M' i j = some v ∧
      ∀ i' j', (i' ≠ i ∨ j' ≠ j) → rd2 M' i' j' = rd2 M i' j' := by
  obtain ⟨x, hx⟩ := Option.isSome_iff_exists.mp h
  unfold rd2 at hx
  cases hrow : M[i]? with
  | none => simp [hrow] at hx
  | some row =>
    simp only [hrow, Option.bind_eq_bind, Option.some_bind] at hx
    have hi : i < M.length := by
      by_contra hcon
      rw [List.getElem?_eq_none (by omega)] at hrow
      exact Option.noConfusion hrow
    have hj : j < row.length := by
      by_contra hcon
      rw [List.getElem?_eq_none (by omega)] at hx
      exact Option.noConfusion hx
    refine ⟨M.set i (row.set j v), ?_, ?_, ?_⟩
    · simp [wr2, hrow, hj]
    · simp [rd2, List.getElem?_set_self hi, List.getElem?_set_self hj]
    · intro i' j' hne
      unfold rd2
      by_cases hii : i' = i
      · subst hii
        have hjj : j' ≠ j := by
          rcases hne with h1 | h1
          · exact absurd rfl h1
          · exact h1
        simp [List.getElem?_set_self hi, hrow, List.getElem?_set_ne (Ne.symm hjj)]
      · rw [List.getElem?_set_ne (Ne.symm hii)]

/-- The accumulation loop over `k` of the sequential kernel. -/
theorem seq_kLoop_spec (n : Nat) (A B C : Mat) (i j : Nat) (hA : IsMat n A) (hB : IsMat n B)
    (hi : i < n) (hj : j < n) (hC : (rd2 C i j).isSome = true) :
    ∃ C', forLoop (fun k C => do
        let c ← rd2 C i j
        let a ← rd2 A i k
        let b ← rd2 B k j
        wr2 C i j (c + a * b)) n C = some C' ∧
      rd2 C' i j = some (entry C i j + dot n A B i j) ∧
      ∀ i' j', (i' ≠ i ∨ j' ≠ j) → rd2 C' i' j' = rd2 C i' j' := by
  have key := forLoop_inv (fun k C => do
        let c ← rd2 C i j
        let a ← rd2 A i k
        let b ← rd2 B k j
        wr2 C i j (c + a * b))
    (fun m s => rd2 s i j = some (entry C i j +
        ∑ k ∈ Finset.range m, entry A i k * entry B k j) ∧
      ∀ i' j', (i' ≠ i ∨ j' ≠ j) → rd2 s i' j' = rd2 C i' j') n C
    ⟨by simpa using rd2_eq_entry hC, fun _ _ _ => rfl⟩
    (by
      intro k s hk ⟨hcell, hframe⟩
      obtain ⟨s', h1, h2, h3⟩ := wr2_spec s i j
        (entry C i j + ∑ k ∈ Finset.range k, entry A i k * entry B k j +
          entry A i k * entry B k j) (by rw [hcell]; rfl)
      refine ⟨s', ?_, ?_, ?_⟩
      · simp only [hcell, rd2_eq_entry (hA i hi k hk), rd2_eq_entry (hB k hk j hj),
          Option.bind_eq_bind, Option.some_bind]
        exact h1
      · rw [h2, Finset.sum_range_succ, add_assoc]
      · intro i' j' hne
        rw [h3 i' j' hne]
        exact hframe i' j' hne)
  exact key

/-- One pass of the loop over `j` of the sequential kernel fills row `i`. -/
theorem seq_jLoop_spec (n : Nat) (A B C : Mat) (i : Nat) (hA : IsMat n A) (hB : IsMat n B)
    (hi : i < n) (hC : ∀ j, j < n → (rd2 C i j).isSome = true) :
    ∃ C', forLoop (fun j C => do
        let C ← wr2 C i j 0
        forLoop (fun k C => do
          let c ← rd2 C i j
          let a ← rd2 A i k
          let b ← rd2 B k j
          wr2 C i j (c + a * b)) n C) n C = some C' ∧
      (∀ j, j < n → rd2 C' i j = some (dot n A B i j)) ∧
      ∀ i' j', i' ≠ i → rd2 C' i' j' = rd2 C i' j' := by
  have key := forLoop_inv (fun j C => do
        let C ← wr2 C i j 0
        forLoop (fun k C => do
          let c ← rd2 C i j
          let a ← rd2 A i k
          let b ← rd2 B k j
          wr2 C i j (c + a * b)) n C)
    (fun m s => (∀ j, j < m → rd2 s i j = some (dot n A B i j)) ∧
      ∀ i' j', (i' ≠ i ∨ m ≤ j') → rd2 s i' j' = rd2 C i' j') n C
    ⟨fun j hj => absurd hj (Nat.not_lt_zero j), fun _ _ _ => rfl⟩
    (by
      intro j s hj ⟨hdone, hframe⟩
      have hsome : (rd2 s i j).isSome = true := by
        rw [hframe i j (Or.inr (Nat.le_refl j))]; exact hC j hj
      obtain ⟨s0, h01, h02, h03⟩ := wr2_spec s i j 0 hsome
      obtain ⟨s', h1, h2, h3⟩ := seq_kLoop_spec n A B s0 i j hA hB hi hj (by rw [h02]; rfl)
      refine ⟨s', ?_, ?_, ?_⟩
      · simp only [h01, Option.bind_eq_bind, Option.some_bind]
        exact h1
      · intro j' hj'
        rcases Nat.lt_succ_iff_lt_or_eq.mp hj' with hlt | heq
        · rw [h3 i j' (Or.inr (by omega)), h03 i j' (Or.inr (by omega))]
          exact hdone j' hlt
        · subst heq
          rw [h2, entry_of_rd2 h02, zero_add]
      · intro i' j' hne
        have hne' : i' ≠ i ∨ j' ≠ j := by
          rcases hne with h | h
          · exact Or.inl h
          · exact Or.inr (by omega)
        rw [h3 i' j' hne', h03 i' j' hne']
        refine hframe i' j' ?_
        rcases hne with h | h
        · exact Or.inl h
        · exact Or.inr (by omega))
  obtain ⟨C', h1, h2, h3⟩ := key
  exact ⟨C', h1, h2, fun i' j' h => h3 i' j' (Or.inl h)⟩

/-- Functional specification of the sequential kernel: on `n × n` matrices the
 call returns and every cell `(i, j)` of the output holds the sum of the `n`
 products. -/
theorem seq_matrix_multiply_spec (n : Nat) (A B C : Mat) (hA : IsMat n A) (hB : IsMat n B)
    (hC : IsMat n C) :
    ∃ C', matrix_multiply n A B C = some C' ∧
      ∀ i j, i < n → j < n → rd2 C' i j = some (dot n A B i j) := by
  have key := forLoop_inv (fun i C =>
      forLoop (fun j C => do
        let C ← wr2 C i j 0
        forLoop (fun k C => do
          let c ← rd2 C i j
          let a ← rd2 A i k
          let b ← rd2 B k j
          wr2 C i j (c + a * b)) n C) n C)
    (fun m s => (∀ i j, i < m → j < n → rd2 s i j = some (dot n A B i j)) ∧
      ∀ i' j', m ≤ i' → rd2 s i' j' = rd2 C i' j') n C
    ⟨fun i _ hi _ => absurd hi (Nat.not_lt_zero i), fun _ _ _ => rfl⟩
    (by
      intro i s hi ⟨hdone, hframe⟩
      obtain ⟨s', h1, h2, h3⟩ := seq_jLoop_spec n A B s i hA hB hi
        (fun j hj => by rw [hframe i j (Nat.le_refl i)]; exact hC i hi j hj)
      refine ⟨s', h1, ?_, ?_⟩
      · intro i' j hi' hj
        rcases Nat.lt_succ_iff_lt_or_eq.mp hi' with hlt | heq
        · rw [h3 i' j (by omega)]
          exact hdone i' j hlt hj
        · subst heq
          exact h2 j hj
      · intro i' j' hi'
        rw [h3 i' j' (by omega)]
        exact hframe i' j' (by omega))
  obtain ⟨C', h1, h2, _⟩ := key
  exact ⟨C', h1, h2⟩

/-- A freshly allocated matrix has all `n × n` cells. -/
theorem alloc_matrix_IsMat (n : Nat) (junk : Nat → Nat → Int) : IsMat n (alloc_matrix n junk) := by
  intro i hi j hj
  simp [rd2, alloc_matrix, malloc, List.getElem?_range hi, List.getElem?_range hj]

/-- One pass of the inner initialisation loop of the sequential program. -/
theorem seq_init_row_spec (n : Nat) (A B : Mat) (i : Nat)
    (hA : ∀ j, j < n → (rd2 A i j).isSome = true)
    (hB : ∀ j, j < n → (rd2 B i j).isSome = true) :
    ∃ A' B', forLoop (fun j (AB : Mat × Mat) => do
        let A ← wr2 AB.1 i j ((i : Int) + (j : Int))
        let B ← wr2 AB.2 i j ((i : Int) - (j : Int))
        pure (A, B)) n (A, B) = some (A', B') ∧
      (∀ j, j < n → rd2 A' i j = some ((i : Int) + (j : Int)) ∧
        rd2 B' i j = some ((i : Int) - (j : Int))) ∧
      ∀ i' j', i' ≠ i → rd2 A' i' j' = rd2 A i' j' ∧ rd2 B' i' j' = rd2 B i' j' := by
  obtain ⟨⟨A', B'⟩, h1, h2, h3⟩ := forLoop_inv (fun j (AB : Mat × Mat) => do
        let A ← wr2 AB.1 i j ((i : Int) + (j : Int))
        let B ← wr2 AB.2 i j ((i : Int) - (j : Int))
        pure (A, B))
    (fun m s => (∀ j, j < m → rd2 s.1 i j = some ((i : Int) + (j : Int)) ∧
        rd2 s.2 i j = some ((i : Int) - (j : Int))) ∧
      ∀ i' j', (i' ≠ i ∨ m ≤ j') → rd2 s.1 i' j' = rd2 A i' j' ∧ rd2 s.2 i' j' = rd2 B i' j')
    n (A, B)
    ⟨fun j hj => absurd hj (Nat.not_lt_zero j), fun _ _ _ => ⟨rfl, rfl⟩⟩
    (by
      intro j s hj ⟨hdone, hframe⟩
      have hf := hframe i j (Or.inr (Nat.le_refl j))
      obtain ⟨A1, a1, a2, a3⟩ := wr2_spec s.1 i j ((i : Int) + (j : Int))
        (by rw [hf.1]; exact hA j hj)
      obtain ⟨B1, b1, b2, b3⟩ := wr2_spec s.2 i j ((i : Int) - (j : Int))
        (by rw [hf.2]; exact hB j hj)
      refine ⟨(A1, B1), ?_, ?_, ?_⟩
      · simp only [a1, b1, Option.bind_eq_bind, Option.some_bind]
        rfl
      · intro j' hj'
        rcases Nat.lt_succ_iff_lt_or_eq.mp hj' with hlt | heq
        · rw [a3 i j' (Or.inr (by omega)), b3 i j' (Or.inr (by omega))]
          exact hdone j' hlt
        · subst heq
          exact ⟨a2, b2⟩
      · intro i' j' hne
        have hne' : i' ≠ i ∨ j' ≠ j := by
          rcases hne with h | h
          · exact Or.inl h
          · exact Or.inr (by omega)
        rw [a3 i' j' hne', b3 i' j' hne']
        refine hframe i' j' ?_
        rcases hne with h | h
        · exact Or.inl h
        · exact Or.inr (by omega))
  exact ⟨A', B', h1, h2, fun i' j' h => h3 i' j' (Or.inl h)⟩

/-- The initialisation loops of the sequential program return and leave
 `A[i][j] = i + j`, `B[i][j] = i - j` for all `i, j < n`. -/
theorem seq_init_matrices_spec (n : Nat) (A B : Mat) (hA : IsMat n A) (hB : IsMat n B) :
    ∃ A' B', init_matrices n A B = some (A', B') ∧
      ∀ i j, i < n → j < n → rd2 A' i j = some ((i : Int) + (j : Int)) ∧
        rd2 B' i j = some ((i : Int) - (j : Int)) := by
  obtain ⟨⟨A', B'⟩, h1, h2, _⟩ := forLoop_inv (fun i (AB : Mat × Mat) =>
      forLoop (fun j (AB : Mat × Mat) => do
        let A ← wr2 AB.1 i j ((i : Int) + (j : Int))
        let B ← wr2 AB.2 i j ((i : Int) - (j : Int))
        pure (A, B)) n AB)
    (fun m s => (∀ i j, i < m → j < n → rd2 s.1 i j = some ((i : Int) + (j : Int)) ∧
        rd2 s.2 i j = some ((i : Int) - (j : Int))) ∧
      ∀ i' j', m ≤ i' → rd2 s.1 i' j' = rd2 A i' j' ∧ rd2 s.2 i' j' = rd2 B i' j') n (A, B)
    ⟨fun i _ hi _ => absurd hi (Nat.not_lt_zero i), fun _ _ _ => ⟨rfl, rfl⟩⟩
    (by
      intro i s hi ⟨hdone, hframe⟩
      obtain ⟨A1, B1, k1, k2, k3⟩ := seq_init_row_spec n s.1 s.2 i
        (fun j hj => by rw [(hframe i j (Nat.le_refl i)).1]; exact hA i hi j hj)
        (fun j hj => by rw [(hframe i j (Nat.le_refl i)).2]; exact hB i hi j hj)
      refine ⟨(A1, B1), k1, ?_, ?_⟩
      · intro i' j hi' hj
        rcases Nat.lt_succ_iff_lt_or_eq.mp hi' with hlt | heq
        · rw [(k3 i' j (by omega)).1, (k3 i' j (by omega)).2]
          exact hdone i' j hlt hj
        · subst heq
          exact k2 j hj
      · intro i' j' hi'
        rw [(k3 i' j' (by omega)).1, (k3 i' j' (by omega)).2]
        exact hframe i' j' (by omega))
  exact ⟨A', B', h1, h2⟩

/-- The print loop of the sequential program outputs the `n` rows of `C`. -/
theorem seq_print_matrix_spec (n : Nat) (C : Mat) (hC : IsMat n C) :
    print_matrix n C = some ((List.range n).map (fun i =>
      (List.range n).map (fun j => entry C i j))) := by
  have hline : ∀ i, i < n →
      forLoop (fun j line => (rd2 C i j).map (fun v => line ++ [v])) n [] =
        some ((List.range n).map (fun j => entry C i j)) := by
    intro i hi
    obtain ⟨l, h1, h2⟩ := forLoop_inv
      (fun j line => (rd2 C i j).map (fun v => line ++ [v]))
      (fun m line => line = (List.range m).map (fun j => entry C i j)) n [] rfl
      (by
        intro j line hj hline
        refine ⟨line ++ [entry C i j], ?_, ?_⟩
        · dsimp only
          rw [rd2_eq_entry (hC i hi j hj)]; rfl
        · dsimp only
          rw [hline, List.range_succ, List.map_append]; rfl)
    rw [h1, h2]
  obtain ⟨out, h1, h2⟩ := forLoop_inv
    (fun i out =>
      (forLoop (fun j line => (rd2 C i j).map (fun v => line ++ [v])) n []).map
        (fun line => out ++ [line]))
    (fun m out => out = (List.range m).map (fun i =>
      (List.range n).map (fun j => entry C i j))) n [] rfl
    (by
      intro i out hi hout
      refine ⟨out ++ [(List.range n).map (fun j => entry C i j)], ?_, ?_⟩
      · dsimp only
        rw [hline i hi]; rfl
      · dsimp only
        rw [hout, List.range_succ, List.map_append]; rfl)
  unfold print_matrix
  rw [h1, h2]

end Sequential

/-- A row-pointer matrix and a flat buffer that hold the same values have the
 same product entries. -/
theorem dot_eq_of_SameMatrix (n : Nat) (A2 B2 : Sequential.Mat) (A B : Buf)
    (hA : Sequential.SameMatrix n A2 A) (hB : Sequential.SameMatrix n B2 B)
    (i j : Nat) (hi : i < n) (hj : j < n) :
    Sequential.dot n A2 B2 i j = Distributed.dot n A B i j := by
  unfold Sequential.dot Distributed.dot
  refine Finset.sum_congr rfl (fun k hk => ?_)
  have hk' : k < n := Finset.mem_range.mp hk
  rw [Sequential.entry_of_rd2 (hA i hi k hk'), Sequential.entry_of_rd2 (hB k hk' j hj)]

theorem IsMat_of_SameMatrix (n : Nat) (M : Sequential.Mat) (F : Buf)
    (h : Sequential.SameMatrix n M F) : Sequential.IsMat n M := by
  intro i hi j hj
  rw [h i hi j hj]; rfl

/-- The distributed pipeline with a process count that divides `n` and the
 sequential kernel, on the same operands, produce the same cells. -/
theorem pipeline_eq_sequential (n world_size : Nat) (A B C0 : Buf) (g : Distributed.Junk)
    (A2 B2 C2 : Sequential.Mat) (hP : 1 ≤ world_size) (hdiv : world_size ∣ n)
    (hA : A.length = n * n) (hB : B.length = n * n) (hC0 : C0.length = n * n)
    (hA2 : Sequential.SameMatrix n A2 A) (hB2 : Sequential.SameMatrix n B2 B)
    (hC2 : Sequential.IsMat n C2) :
    ∃ C Cseq, Distributed.pipeline n world_size A B C0 g = some C ∧
      Sequential.matrix_multiply n A2 B2 C2 = some Cseq ∧ C.length = n * n ∧
      ∀ i j, i < n → j < n →
        ∃ v, C[i * n + j]? = some v ∧ Sequential.rd2 Cseq i j = some v := by
  obtain ⟨C, h1, h2, h3⟩ := Distributed.pipeline_div_spec n world_size A B C0 g hP hdiv hA hB hC0
  obtain ⟨Cseq, k1, k2⟩ := Sequential.seq_matrix_multiply_spec n A2 B2 C2
    (IsMat_of_SameMatrix n A2 A hA2) (IsMat_of_SameMatrix n B2 B hB2) hC2
  refine ⟨C, Cseq, h1, k1, h2, fun i j hi hj => ⟨Distributed.dot n A B i j, h3 i j hi hj, ?_⟩⟩
  rw [k2 i j hi hj, dot_eq_of_SameMatrix n A2 B2 A B hA2 hB2 i j hi hj]

/-- Every index below `P * count` is `r * count + u` for a rank `r < P` and a
 position `u < count`. -/
theorem chunk_index (count world_size t : Nat) (ht : t < world_size * count) :
    t / count < world_size ∧ t % count < count ∧ t / count * count + t % count = t := by
  have hc : 0 < count := by
    rcases Nat.eq_zero_or_pos count with h | h
    · subst h; simp at ht
    · exact h
  refine ⟨?_, Nat.mod_lt t hc, Nat.div_add_mod' t count⟩
  rw [Nat.div_lt_iff_lt_mul hc]
  exact ht

/-- Scattering a buffer of `P * count` cells and gathering the chunks back
 gives the buffer again. -/
theorem scatter_gather_roundtrip (n world_size : Nat) (M C0 : Buf) (g : Distributed.Junk)
    (hfull : world_size * Distributed.chunk_count n world_size = n * n)
    (hM : M.length = n * n) (hC0 : C0.length = n * n) :
    ∃ chunks, Distributed.all_ranks world_size (Distributed.rank_local_A n world_size M g) =
        some chunks ∧
      Distributed.MPI_Gather chunks (Distributed.chunk_count n world_size) C0 = some M := by
  obtain ⟨L, hL, hLlen, hLget⟩ := Distributed.all_ranks_spec world_size
    (Distributed.rank_local_A n world_size M g)
    (fun r hr => by
      obtain ⟨b, hb, _⟩ := Distributed.rank_local_A_spec n world_size M g r hM hr
      exact ⟨b, hb⟩)
  have hLr : ∀ r, r < world_size →
      Distributed.rank_local_A n world_size M g r = some (L.getD r []) := by
    intro r hr
    rw [← hLget r hr]
    simp [List.getD, List.getElem?_eq_getElem (by omega : r < L.length)]
  obtain ⟨C', h1, h2, h3, _⟩ := Distributed.MPI_Gather_spec L
    (Distributed.chunk_count n world_size) C0
    (fun r hr => by
      obtain ⟨b, hb, hblen, _⟩ := Distributed.rank_local_A_spec n world_size M g r hM (by omega)
      rw [hLr r (by omega)] at hb
      rw [Option.some.inj hb, hblen])
    (by rw [hLlen, hC0, hfull])
  refine ⟨L, hL, ?_⟩
  rw [h1]
  congr 1
  apply List.ext_getElem?
  intro t
  by_cases ht : t < n * n
  · obtain ⟨hr, hu, hidx⟩ := chunk_index (Distributed.chunk_count n world_size) world_size t
      (by rw [hfull]; exact ht)
    rw [hLlen] at h3
    have h := h3 _ _ hr hu
    rw [hidx] at h
    rw [h]
    obtain ⟨b, hb, _, hbget⟩ := Distributed.rank_local_A_spec n world_size M g _ hM hr
    rw [hLr _ hr] at hb
    rw [Option.some.inj hb, hbget _ hu, hidx]
  · rw [List.getElem?_eq_none (by omega), List.getElem?_eq_none (by omega)]

theorem map_range_congr {β : Type} (f h : Nat → β) (n : Nat)
    (hfh : ∀ i, i < n → f i = h i) : (List.range n).map f = (List.range n).map h :=
  List.map_congr_left (fun a ha => hfh a (List.mem_range.mp ha))

/-- The part of `main` after the initialisation returns for every process
 count: the pipeline yields a `C` of `n * n` cells, all of which are printed,
 and the exit code is 0. -/
theorem run_total (n world_size : Nat) (A B : Buf) (g : Distributed.Junk)
    (hP : 1 ≤ world_size) (hA : A.length = n * n) (hB : B.length = n * n) :
    ∃ C, Distributed.pipeline n world_size A B (malloc (n * n) g.C) g = some C ∧
      C.length = n * n ∧
      Distributed.run n world_size A B g = some ⟨rows_of n C, 0⟩ := by
  obtain ⟨C, h1, h2, _⟩ := Distributed.pipeline_spec n world_size A B (malloc (n * n) g.C) g
    hP hA hB (malloc_length _ _)
  refine ⟨C, h1, h2, ?_⟩
  unfold Distributed.run
  simp only [h1, Distributed.print_matrix_spec n C (by rw [h2]), Option.bind_eq_bind,
    Option.some_bind]
  rfl

/-- With a process count that divides `n` the printed matrix is the product. -/
theorem run_div_spec (n world_size : Nat) (A B : Buf) (g : Distributed.Junk)
    (hP : 1 ≤ world_size) (hdiv : world_size ∣ n) (hA : A.length = n * n)
    (hB : B.length = n * n) :
    Distributed.run n world_size A B g = some ⟨(List.range n).map (fun i =>
      (List.range n).map (fun j => Distributed.dot n A B i j)), 0⟩ := by
  obtain ⟨C, h1, _, h3⟩ := run_total n world_size A B g hP hA hB
  obtain ⟨C', k1, _, k3⟩ := Distributed.pipeline_div_spec n world_size A B
    (malloc (n * n) g.C) g hP hdiv hA hB (malloc_length _ _)
  rw [h1] at k1
  rw [h3, Option.some.inj k1]
  congr 2
  unfold rows_of
  refine map_range_congr _ _ n (fun i hi => map_range_congr _ _ n (fun j hj => ?_))
  exact getD_of_getElem? (k3 i j hi hj)

/-- The initialisation in `main` returns, for every junk content. -/
theorem main_init (n : Nat) (g : Distributed.Junk) :
    ∃ A B, Distributed.init_matrices n (malloc (n * n) g.A) (malloc (n * n) g.B) = some (A, B) ∧
      A.length = n * n ∧ B.length = n * n ∧
      ∀ i j, i < n → j < n → A.getD (i * n + j) 0 = (i : Int) + (j : Int) ∧
        B.getD (i * n + j) 0 = (i : Int) - (j : Int) := by
  obtain ⟨A, B, h1, h2, h3, h4⟩ := Distributed.init_matrices_spec n (malloc (n * n) g.A)
    (malloc (n * n) g.B) (by rw [malloc_length]) (by rw [malloc_length])
  refine ⟨A, B, h1, by rw [h2, malloc_length], by rw [h3, malloc_length], ?_⟩
  intro i j hi hj
  exact ⟨getD_of_getElem? (h4 i j hi hj).1, getD_of_getElem? (h4 i j hi hj).2⟩

theorem main_eq_run (n world_size : Nat) (g : Distributed.Junk) (A B : Buf)
    (h : Distributed.init_matrices n (malloc (n * n) g.A) (malloc (n * n) g.B) = some (A, B)) :
    Distributed.main n world_size g = Distributed.run n world_size A B g := by
  unfold Distributed.main
  simp only [h, Option.bind_eq_bind, Option.some_bind]

theorem rows_of_length (n : Nat) (C : Buf) : (rows_of n C).length = n := by
  simp [rows_of]

theorem rows_of_row_length (n : Nat) (C : Buf) (row : List Int) (h : row ∈ rows_of n C) :
    row.length = n := by
  unfold rows_of at h
  obtain ⟨i, _, rfl⟩ := List.mem_map.mp h
  simp

theorem getD_eq_zero_of_all_zero (A : Buf) (h : ∀ x ∈ A, x = 0) (t : Nat) :
    A.getD t 0 = 0 := by
  by_cases ht : t < A.length
  · have hm : A[t] ∈ A := List.getElem_mem ht
    simpa [List.getD, List.getElem?_eq_getElem ht] using h _ hm
  · simp [List.getD, List.getElem?_eq_none (by omega : A.length ≤ t)]

/-- Every index below `n * n` is `i * n + j` with `i, j < n`. -/
theorem cell_index (n t : Nat) (ht : t < n * n) :
    t / n < n ∧ t % n < n ∧ t / n * n + t % n = t :=
  chunk_index n n t ht

/-- Two buffers of `n * n` cells that agree on every cell `(i, j)` are equal. -/
theorem buf_ext_cells (n : Nat) (X Y : Buf) (hX : X.length = n * n) (hY : Y.length = n * n)
    (h : ∀ i j, i < n → j < n → X[i * n + j]? = Y[i * n + j]?) : X = Y := by
  apply List.ext_getElem?
  intro t
  by_cases ht : t < n * n
  · obtain ⟨hi, hj, hidx⟩ := cell_index n t ht
    have := h _ _ hi hj
    rw [hidx] at this
    exact this
  · rw [List.getElem?_eq_none (by omega), List.getElem?_eq_none (by omega)]

/-- Multiplying by the identity matrix returns the row block's own entries. -/
theorem dot_identity (n : Nat) (A B : Buf)
    (hId : ∀ i j, i < n → j < n → B.getD (i * n + j) 0 = if i = j then 1 else 0)
    (i j : Nat) (hj : j < n) : Distributed.dot n A B i j = A.getD (i * n + j) 0 := by
  unfold Distributed.dot
  have hterm : ∀ k, k ∈ Finset.range n →
      A.getD (i * n + k) 0 * B.getD (k * n + j) 0 =
        if k = j then A.getD (i * n + k) 0 else 0 := by
    intro k hk
    rw [hId k j (Finset.mem_range.mp hk) hj]
    split <;> simp
  rw [Finset.sum_congr rfl hterm, Finset.sum_ite_eq' (Finset.range n) j]
  simp [hj]

theorem sum_sq_six (n : Nat) :
    6 * (∑ k ∈ Finset.range n, (k : Int) * (k : Int)) =
      (n : Int) * ((n : Int) - 1) * (2 * (n : Int) - 1) := by
  induction n with
  | zero => simp
  | succ m ih =>
    rw [Finset.sum_range_succ, mul_add, ih]
    push_cast
    ring

theorem sum_lin_two (n : Nat) :
    2 * (∑ k ∈ Finset.range n, (k : Int)) = (n : Int) * ((n : Int) - 1) := by
  induction n with
  | zero => simp
  | succ m ih =>
    rw [Finset.sum_range_succ, mul_add, ih]
    push_cast
    ring

theorem builtin_sum_split (n i j : Nat) :
    (∑ k ∈ Finset.range n, ((i : Int) + (k : Int)) * ((k : Int) - (j : Int))) =
      (∑ k ∈ Finset.range n, (k : Int) * (k : Int)) +
        ((i : Int) - (j : Int)) * (∑ k ∈ Finset.range n, (k : Int)) -
        (n : Int) * (i : Int) * (j : Int) := by
  induction n with
  | zero => simp
  | succ m ih =>
    rw [Finset.sum_range_succ, Finset.sum_range_succ, Finset.sum_range_succ, ih]
    push_cast
    ring

/-- The sum the kernel accumulates on the built-in inputs, in closed form. -/
theorem builtin_sum (n i j : Nat) :
    (∑ k ∈ Finset.range n, ((i : Int) + (k : Int)) * ((k : Int) - (j : Int))) =
      closed_form_cell n i j := by
  unfold closed_form_cell
  rw [builtin_sum_split, ← sum_sq_six n, ← sum_lin_two n,
    Int.mul_ediv_cancel_left _ (by norm_num), Int.mul_ediv_cancel_left _ (by norm_num)]

/-- The distributed program on its built-in inputs prints the closed form. -/
theorem main_builtin (n world_size : Nat) (g : Distributed.Junk)
    (hP : 1 ≤ world_size) (hdiv : world_size ∣ n) :
    Distributed.main n world_size g = some ⟨(List.range n).map (fun i =>
      (List.range n).map (fun j => closed_form_cell n i j)), 0⟩ := by
  obtain ⟨A, B, h1, h2, h3, h4⟩ := main_init n g
  rw [main_eq_run n world_size g A B h1, run_div_spec n world_size A B g hP hdiv h2 h3]
  congr 2
  refine map_range_congr _ _ n (fun i hi => map_range_congr _ _ n (fun j hj => ?_))
  rw [← builtin_sum n i j]
  unfold Distributed.dot
  refine Finset.sum_congr rfl (fun k hk => ?_)
  have hk' : k < n := Finset.mem_range.mp hk
  rw [(h4 i k hi hk').1, (h4 k j hk' hj).2]

/-- The sequential program on its built-in inputs prints the closed form. -/
theorem seq_main_builtin (n : Nat) (g : Sequential.Junk) :
    Sequential.main n g = some ((List.range n).map (fun i =>
      (List.range n).map (fun j => closed_form_cell n i j)), 0) := by
  obtain ⟨A, B, h1, h2⟩ := Sequential.seq_init_matrices_spec n _ _
    (Sequential.alloc_matrix_IsMat n g.A) (Sequential.alloc_matrix_IsMat n g.B)
  have hA : Sequential.IsMat n A := fun i hi j hj => by rw [(h2 i j hi hj).1]; rfl
  have hB : Sequential.IsMat n B := fun i hi j hj => by rw [(h2 i j hi hj).2]; rfl
  obtain ⟨C, k1, k2⟩ := Sequential.seq_matrix_multiply_spec n A B _ hA hB
    (Sequential.alloc_matrix_IsMat n g.C)
  have hC : Sequential.IsMat n C := fun i hi j hj => by rw [k2 i j hi hj]; rfl
  unfold Sequential.main
  simp only [h1, k1, Sequential.seq_print_matrix_spec n C hC, Option.bind_eq_bind,
    Option.some_bind]
  congr 2
  refine map_range_congr _ _ n (fun i hi => map_range_congr _ _ n (fun j hj => ?_))
  rw [Sequential.entry_of_rd2 (k2 i j hi hj), ← builtin_sum n i j]
  unfold Sequential.dot
  refine Finset.sum_congr rfl (fun k hk => ?_)
  have hk' : k < n := Finset.mem_range.mp hk
  rw [Sequential.entry_of_rd2 (h2 i k hi hk').1, Sequential.entry_of_rd2 (h2 k j hk' hj).2]

/-- Two loops whose bodies commute with an embedding of the state commute
 with it as a whole. -/
theorem forLoop_map {σ τ : Type} (f : σ → τ) (body : Nat → σ → Option σ)
    (body' : Nat → τ → Option τ)
    (h : ∀ k s, body' k (f s) = (body k s).map f) :
    ∀ (n : Nat) (s : σ), forLoop body' n (f s) = (forLoop body n s).map f := by
  intro n
  induction n with
  | zero => intro s; rfl
  | succ m ih =>
    intro s
    rw [forLoop_succ, forLoop_succ, ih s]
    cases forLoop body m s with
    | none => rfl
    | some s1 => exact h m s1

/-- The memory-transformer form of the kernel runs the buffer form on `C` and
 carries `A` and `B` along untouched. -/
theorem matrix_multiply_mem_eq (rows n : Nat) (A B C : Buf) :
    Distributed.matrix_multiply_mem rows n ⟨A, B, C⟩ =
      (Distributed.matrix_multiply rows n A B C).map (fun C' => ⟨A, B, C'⟩) := by
  unfold Distributed.matrix_multiply_mem Distributed.matrix_multiply
  refine forLoop_map (fun C' => (⟨A, B, C'⟩ : Distributed.Mem)) _ _ (fun i C1 => ?_) rows C
  refine forLoop_map (fun C' => (⟨A, B, C'⟩ : Distributed.Mem)) _ _ (fun j C2 => ?_) n C1
  dsimp only
  cases hw : wr C2 (i * n + j) 0 with
  | none => rfl
  | some C3 =>
    simp only [Option.bind_eq_bind, Option.some_bind]
    refine forLoop_map (fun C' => (⟨A, B, C'⟩ : Distributed.Mem)) _ _ (fun k C4 => ?_) n C3
    dsimp only
    cases rd C4 (i * n + j) <;> cases rd A (i * n + k) <;> cases rd B (k * n + j) <;>
      simp only [Option.bind_eq_bind, Option.some_bind, Option.none_bind, Option.map_none']
    rename_i c a b
    cases wr C4 (i * n + j) (c + a * b) <;> rfl

/-- A product entry of the upper block of a stacked operand only reads the
 upper block. -/
theorem dot_append_left (n r1 : Nat) (A1 A2 B : Buf) (hA1 : A1.length = r1 * n)
    (i j : Nat) (hi : i < r1) :
    Distributed.dot n (A1 ++ A2) B i j = Distributed.dot n A1 B i j := by
  unfold Distributed.dot
  refine Finset.sum_congr rfl (fun k hk => ?_)
  have hlt : i * n + k < A1.length := by
    rw [hA1]; exact idx_lt hi (Finset.mem_range.mp hk)
  rw [getD_congr (List.getElem?_append_left hlt)]

/-- A product entry of the lower block of a stacked operand only reads the
 lower block. -/
theorem dot_append_right (n r1 : Nat) (A1 A2 B : Buf) (hA1 : A1.length = r1 * n)
    (i j : Nat) :
    Distributed.dot n (A1 ++ A2) B (r1 + i) j = Distributed.dot n A2 B i j := by
  unfold Distributed.dot
  refine Finset.sum_congr rfl (fun k _ => ?_)
  have hidx : (r1 + i) * n + k = A1.length + (i * n + k) := by
    rw [hA1, Nat.add_mul, Nat.add_assoc]
  have hget : (A1 ++ A2)[(r1 + i) * n + k]? = A2[i * n + k]? := by
    rw [hidx, List.getElem?_append_right (Nat.le_add_right _ _), Nat.add_sub_cancel_left]
  rw [getD_congr hget]

/-- The kernel's output cell depends on the operand row only. -/
theorem dot_congr_row (n : Nat) (A A' B : Buf) (i j : Nat)
    (h : ∀ k, k < n → A'[i * n + k]? = A[i * n + k]?) :
    Distributed.dot n A' B i j = Distributed.dot n A B i j := by
  unfold Distributed.dot
  refine Finset.sum_congr rfl (fun k hk => ?_)
  rw [getD_congr (h k (Finset.mem_range.mp hk))]

/-! ## Exactness of the `double` accumulation -/

/-- Two loops agree when their bodies agree on every state that satisfies an
 invariant of the second loop. -/
theorem forLoop_congr_inv {σ : Type} (body' body : Nat → σ → Option σ)
    (Inv : Nat → σ → Prop) :
    ∀ (n : Nat) (s : σ), Inv 0 s →
      (∀ k t, k < n → Inv k t →
        body' k t = body k t ∧ ∀ t', body k t = some t' → Inv (k + 1) t') →
      forLoop body' n s = forLoop body n s ∧
        ∀ s', forLoop body n s = some s' → Inv n s' := by
  intro n
  induction n with
  | zero =>
    intro s h0 _
    exact ⟨rfl, fun s' hs' => by cases hs'; exact h0⟩
  | succ m ih =>
    intro s h0 hstep
    obtain ⟨heq, hinv⟩ := ih s h0 (fun k t hk ht => hstep k t (Nat.lt_succ_of_lt hk) ht)
    rw [forLoop_succ, forLoop_succ, heq]
    cases hm : forLoop body m s with
    | none => exact ⟨rfl, fun s' hs' => by cases hs'⟩
    | some s1 =>
      obtain ⟨hb, hnext⟩ := hstep m s1 (Nat.lt_succ_self m) (hinv s1 hm)
      exact ⟨hb, fun s' hs' => hnext s' hs'⟩

/-- Two loops agree when their bodies agree at every index below the bound. -/
theorem forLoop_congr {σ : Type} (body' body : Nat → σ → Option σ) (n : Nat) (s : σ)
    (h : ∀ k t, k < n → body' k t = body k t) :
    forLoop body' n s = forLoop body n s :=
  (forLoop_congr_inv body' body (fun _ _ => True) n s trivial
    (fun k t hk _ => ⟨h k t hk, fun _ _ => trivial⟩)).1

theorem abs_partial_sum_le (f : Nat → Int) (M : Int) (m : Nat)
    (h : ∀ k, k < m → |f k| ≤ M) : |∑ k ∈ Finset.range m, f k| ≤ (m : Int) * M := by
  induction m with
  | zero => simp
  | succ q ih =>
    rw [Finset.sum_range_succ]
    have h1 := ih (fun k hk => h k (Nat.lt_succ_of_lt hk))
    have h2 := h q (Nat.lt_succ_self q)
    have h3 := abs_add (∑ k ∈ Finset.range q, f k) (f q)
    push_cast
    linarith

theorem rd_eq_getD {b : Buf} {i : Nat} {v : Int} (h : rd b i = some v) : v = b.getD i 0 := by
  unfold rd at h
  simp [List.getD, h]

/-- The rounded accumulation loop over `k` equals the exact one when the cell
 starts at zero and `n` products of operand entries stay within the exactly
 representable range. -/
theorem kLoop_fl_eq (rnd : Int → Int) (hrnd : ∀ z : Int, |z| ≤ 2 ^ 53 → rnd z = z)
    (n : Nat) (A B C : Buf) (i j : Nat) (Ma Mb : Int)
    (hMa : ∀ t, |A.getD t 0| ≤ Ma) (hMb : ∀ t, |B.getD t 0| ≤ Mb)
    (hbound : (n : Int) * (Ma * Mb) ≤ 2 ^ 53)
    (hC : ∀ v, rd C (i * n + j) = some v → v = 0) :
    forLoop (fun k C => do
        let c ← rd C (i * n + j)
        let a ← rd A (i * n + k)
        let b ← rd B (k * n + j)
        wr C (i * n + j) (rnd (c + rnd (a * b)))) n C =
      forLoop (fun k C => do
        let c ← rd C (i * n + j)
        let a ← rd A (i * n + k)
        let b ← rd B (k * n + j)
        wr C (i * n + j) (c + a * b)) n C := by
  have hMa0 : 0 ≤ Ma := le_trans (abs_nonneg _) (hMa 0)
  have hMb0 : 0 ≤ Mb := le_trans (abs_nonneg _) (hMb 0)
  have hprod : ∀ x y, |A.getD x 0 * B.getD y 0| ≤ Ma * Mb := by
    intro x y
    rw [abs_mul]
    exact mul_le_mul (hMa x) (hMb y) (abs_nonneg _) hMa0
  refine (forLoop_congr_inv _ _
    (fun m s => ∀ v, rd s (i * n + j) = some v →
      v = ∑ k ∈ Finset.range m, A.getD (i * n + k) 0 * B.getD (k * n + j) 0) n C
    (by intro v hv; simpa using hC v hv) ?_).1
  intro k t hk hinv
  dsimp only
  cases hc : rd t (i * n + j) with
  | none => exact ⟨rfl, fun t' ht' => by cases ht'⟩
  | some cv =>
    cases ha : rd A (i * n + k) with
    | none => exact ⟨rfl, fun t' ht' => by cases ht'⟩
    | some av =>
      cases hb : rd B (k * n + j) with
      | none => exact ⟨rfl, fun t' ht' => by cases ht'⟩
      | some bv =>
        simp only [Option.bind_eq_bind, Option.some_bind]
        have hcv := hinv cv hc
        have hav := rd_eq_getD ha
        have hbv := rd_eq_getD hb
        have hsum : cv + av * bv =
            ∑ q ∈ Finset.range (k + 1), A.getD (i * n + q) 0 * B.getD (q * n + j) 0 := by
          rw [Finset.sum_range_succ, hcv, hav, hbv]
        have hkn : ((k : Int) + 1) ≤ (n : Int) := by exact_mod_cast hk
        have hMM : 0 ≤ Ma * Mb := mul_nonneg hMa0 hMb0
        have h1 : |av * bv| ≤ 2 ^ 53 := by
          rw [hav, hbv]
          have := hprod (i * n + k) (k * n + j)
          nlinarith
        have h2 : |cv + av * bv| ≤ 2 ^ 53 := by
          rw [hsum]
          have := abs_partial_sum_le
            (fun q => A.getD (i * n + q) 0 * B.getD (q * n + j) 0) (Ma * Mb) (k + 1)
            (fun q _ => hprod _ _)
          push_cast at this
          nlinarith
        rw [hrnd _ h1, hrnd _ h2]
        refine ⟨rfl, ?_⟩
        intro t' ht' v hv
        unfold wr at ht'
        split at ht'
        · rename_i hlt
          cases ht'
          unfold rd at hv
          rw [List.getElem?_set_self hlt] at hv
          cases hv
          exact hsum
        · cases ht'

/-- The rounded kernel equals the exact kernel when `n` products of operand
 entries stay within the exactly representable range. -/
theorem matrix_multiply_fl_eq (rnd : Int → Int) (hrnd : ∀ z : Int, |z| ≤ 2 ^ 53 → rnd z = z)
    (rows n : Nat) (A B C : Buf) (Ma Mb : Int)
    (hMa : ∀ t, |A.getD t 0| ≤ Ma) (hMb : ∀ t, |B.getD t 0| ≤ Mb)
    (hbound : (n : Int) * (Ma * Mb) ≤ 2 ^ 53) :
    Distributed.matrix_multiply_fl rnd rows n A B C =
      Distributed.matrix_multiply rows n A B C := by
  unfold Distributed.matrix_multiply_fl Distributed.matrix_multiply
  refine forLoop_congr _ _ rows C (fun i C1 _ => ?_)
  refine forLoop_congr _ _ n C1 (fun j C2 _ => ?_)
  dsimp only
  cases hw : wr C2 (i * n + j) 0 with
  | none => rfl
  | some C3 =>
    simp only [Option.bind_eq_bind, Option.some_bind]
    refine kLoop_fl_eq rnd hrnd n A B C3 i j Ma Mb hMa hMb hbound ?_
    intro v hv
    unfold wr at hw
    split at hw
    · rename_i hlt
      cases hw
      unfold rd at hv
      rw [List.getElem?_set_self hlt] at hv
      cases hv
      rfl
    · cases hw

/-- Converting the initial values `i + j`, `i - j` to `double` is exact. -/
theorem init_matrices_fl_eq (rnd : Int → Int) (hrnd : ∀ z : Int, |z| ≤ 2 ^ 53 → rnd z = z)
    (n : Nat) (A B : Buf) (hn : 2 * (n : Int) ≤ 2 ^ 53) :
    Distributed.init_matrices_fl rnd n A B = Distributed.init_matrices n A B := by
  unfold Distributed.init_matrices_fl Distributed.init_matrices
  refine forLoop_congr _ _ n (A, B) (fun i AB hi => ?_)
  refine forLoop_congr _ _ n AB (fun j AB' hj => ?_)
  have hi' : (i : Int) < (n : Int) := by exact_mod_cast hi
  have hj' : (j : Int) < (n : Int) := by exact_mod_cast hj
  have hi0 : (0 : Int) ≤ (i : Int) := Int.ofNat_nonneg i
  have hj0 : (0 : Int) ≤ (j : Int) := Int.ofNat_nonneg j
  have h1 : |(i : Int) + (j : Int)| ≤ 2 ^ 53 := by
    rw [abs_le]; constructor <;> linarith
  have h2 : |(i : Int) - (j : Int)| ≤ 2 ^ 53 := by
    rw [abs_le]; constructor <;> linarith
  rw [hrnd _ h1, hrnd _ h2]

/-- Entries of the built-in operands are small: `|A[t]| ≤ 2n`, `|B[t]| ≤ n`. -/
theorem builtin_bounds (n : Nat) (A B : Buf) (hA : A.length = n * n) (hB : B.length = n * n)
    (hval : ∀ i j, i < n → j < n → A.getD (i * n + j) 0 = (i : Int) + (j : Int) ∧
      B.getD (i * n + j) 0 = (i : Int) - (j : Int)) :
    (∀ t, |A.getD t 0| ≤ 2 * (n : Int)) ∧ ∀ t, |B.getD t 0| ≤ (n : Int) := by
  have hn0 : (0 : Int) ≤ (n : Int) := Int.ofNat_nonneg n
  have hcell : ∀ t, t < n * n → |A.getD t 0| ≤ 2 * (n : Int) ∧ |B.getD t 0| ≤ (n : Int) := by
    intro t ht
    obtain ⟨hi, hj, hidx⟩ := cell_index n t ht
    have h := hval _ _ hi hj
    rw [hidx] at h
    have hi' : ((t / n : Nat) : Int) < (n : Int) := by exact_mod_cast hi
    have hj' : ((t % n : Nat) : Int) < (n : Int) := by exact_mod_cast hj
    have hi0 : (0 : Int) ≤ ((t / n : Nat) : Int) := Int.ofNat_nonneg _
    have hj0 : (0 : Int) ≤ ((t % n : Nat) : Int) := Int.ofNat_nonneg _
    rw [h.1, h.2]
    constructor
    · rw [abs_le]; constructor <;> linarith
    · rw [abs_le]; constructor <;> linarith
  have hout : ∀ (X : Buf) (t : Nat), X.length = n * n → ¬ t < n * n → X.getD t 0 = 0 := by
    intro X t hX ht
    simp [List.getD, List.getElem?_eq_none (by omega : X.length ≤ t)]
  constructor
  · intro t
    by_cases ht : t < n * n
    · exact (hcell t ht).1
    · rw [hout A t hA ht]; simp
  · intro t
    by_cases ht : t < n * n
    · exact (hcell t ht).2
    · rw [hout B t hB ht]; simp

/-- The cells a rank receives are cells of `A`, so a bound on the entries of
 `A` is a bound on the entries of the rank's chunk. -/
theorem local_A_bound (n world_size : Nat) (A : Buf) (g : Distributed.Junk) (r : Nat)
    (hA : A.length = n * n) (hr : r < world_size) (Ma : Int)
    (hMa : ∀ t, |A.getD t 0| ≤ Ma) (LA : Buf)
    (hLA : Distributed.rank_local_A n world_size A g r = some LA) :
    ∀ t, |LA.getD t 0| ≤ Ma := by
  obtain ⟨L, h1, h2, h3⟩ := Distributed.rank_local_A_spec n world_size A g r hA hr
  rw [hLA] at h1
  cases h1
  intro t
  by_cases ht : t < Distributed.chunk_count n world_size
  · rw [getD_congr (h3 t ht)]
    exact hMa _
  · have h0 : LA.getD t 0 = 0 := by
      simp [List.getD, List.getElem?_eq_none (by omega : LA.length ≤ t)]
    rw [h0]
    exact le_trans (abs_nonneg _) (hMa 0)

/-- On operands with small entries every rank's rounded computation equals
 its exact computation. -/
theorem rank_local_C_fl_eq (rnd : Int → Int) (hrnd : ∀ z : Int, |z| ≤ 2 ^ 53 → rnd z = z)
    (n world_size : Nat) (A B : Buf) (g : Distributed.Junk) (r : Nat)
    (hA : A.length = n * n) (hB : B.length = n * n) (hr : r < world_size) (Ma Mb : Int)
    (hMa : ∀ t, |A.getD t 0| ≤ Ma) (hMb : ∀ t, |B.getD t 0| ≤ Mb)
    (hbound : (n : Int) * (Ma * Mb) ≤ 2 ^ 53) :
    Distributed.rank_local_C_fl rnd n world_size A B g r =
      Distributed.rank_local_C n world_size A B g r := by
  obtain ⟨LA, hLA, _⟩ := Distributed.rank_local_A_spec n world_size A g r hA hr
  unfold Distributed.rank_local_C_fl Distributed.rank_local_C
  simp only [Distributed.rank_B_eq n B g r hB, hLA, Option.bind_eq_bind, Option.some_bind]
  exact matrix_multiply_fl_eq rnd hrnd _ n LA B _ Ma Mb
    (local_A_bound n world_size A g r hA hr Ma hMa LA hLA) hMb hbound

/-- On operands with small entries the rounded run equals the exact run. -/
theorem run_fl_eq (rnd : Int → Int) (hrnd : ∀ z : Int, |z| ≤ 2 ^ 53 → rnd z = z)
    (n world_size : Nat) (A B : Buf) (g : Distributed.Junk)
    (hA : A.length = n * n) (hB : B.length = n * n) (Ma Mb : Int)
    (hMa : ∀ t, |A.getD t 0| ≤ Ma) (hMb : ∀ t, |B.getD t 0| ≤ Mb)
    (hbound : (n : Int) * (Ma * Mb) ≤ 2 ^ 53) :
    Distributed.run_fl rnd n world_size A B g = Distributed.run n world_size A B g := by
  have hranks : Distributed.all_ranks world_size
        (Distributed.rank_local_C_fl rnd n world_size A B g) =
      Distributed.all_ranks world_size (Distributed.rank_local_C n world_size A B g) := by
    unfold Distributed.all_ranks
    refine forLoop_congr _ _ world_size [] (fun r acc hr => ?_)
    dsimp only
    rw [rank_local_C_fl_eq rnd hrnd n world_size A B g r hA hB hr Ma Mb hMa hMb hbound]
  unfold Distributed.run_fl Distributed.run Distributed.pipeline_fl Distributed.pipeline
  rw [hranks]

/-- The distributed program in `double` arithmetic prints what its integer
 model prints, as long as `2 n³` does not exceed `2^53`. -/
theorem main_fl_eq (rnd : Int → Int) (hrnd : ∀ z : Int, |z| ≤ 2 ^ 53 → rnd z = z)
    (n world_size : Nat) (g : Distributed.Junk) (hn : 2 * (n : Int) ^ 3 ≤ 2 ^ 53) :
    Distributed.main_fl rnd n world_size g = Distributed.main n world_size g := by
  have hn0 : (0 : Int) ≤ (n : Int) := Int.ofNat_nonneg n
  obtain ⟨A, B, h1, h2, h3, h4⟩ := main_init n g
  obtain ⟨hMa, hMb⟩ := builtin_bounds n A B h2 h3 h4
  have hsmall : 2 * (n : Int) ≤ 2 ^ 53 := by
    rcases Nat.eq_zero_or_pos n with h | h
    · subst h; norm_num
    · have h1n : (1 : Int) ≤ (n : Int) := by exact_mod_cast h
      nlinarith [mul_nonneg hn0 hn0, mul_le_mul h1n h1n (by norm_num : (0 : Int) ≤ 1) hn0]
  unfold Distributed.main_fl Distributed.main
  rw [init_matrices_fl_eq rnd hrnd n _ _ hsmall, h1]
  simp only [Option.bind_eq_bind, Option.some_bind]
  exact run_fl_eq rnd hrnd n world_size A B g h2 h3 (2 * (n : Int)) (n : Int) hMa hMb
    (by nlinarith)

/-- A checked write that succeeds stores its value. -/
theorem wr2_some_rd2 (M M' : Sequential.Mat) (i j : Nat) (v : Int)
    (h : Sequential.wr2 M i j v = some M') : Sequential.rd2 M' i j = some v := by
  unfold Sequential.wr2 at h
  cases hrow : M[i]? with
  | none => simp [hrow] at h
  | some row =>
    simp only [hrow, Option.bind_eq_bind, Option.some_bind] at h
    split at h
    · rename_i hj
      cases h
      have hi : i < M.length := by
        by_contra hcon
        rw [List.getElem?_eq_none (by omega)] at hrow
        exact Option.noConfusion hrow
      simp [Sequential.rd2, List.getElem?_set_self hi, List.getElem?_set_self hj]
    · cases h

/-- The rounded accumulation loop of the sequential kernel equals the exact
 one under the same smallness condition. -/
theorem seq_kLoop_fl_eq (rnd : Int → Int) (hrnd : ∀ z : Int, |z| ≤ 2 ^ 53 → rnd z = z)
    (n : Nat) (A B C : Sequential.Mat) (i j : Nat) (hi : i < n) (hj : j < n) (Ma Mb : Int)
    (hMa : ∀ x y, x < n → y < n → |Sequential.entry A x y| ≤ Ma)
    (hMb : ∀ x y, x < n → y < n → |Sequential.entry B x y| ≤ Mb)
    (hbound : (n : Int) * (Ma * Mb) ≤ 2 ^ 53)
    (hC : ∀ v, Sequential.rd2 C i j = some v → v = 0) :
    forLoop (fun k C => do
        let c ← Sequential.rd2 C i j
        let a ← Sequential.rd2 A i k
        let b ← Sequential.rd2 B k j
        Sequential.wr2 C i j (rnd (c + rnd (a * b)))) n C =
      forLoop (fun k C => do
        let c ← Sequential.rd2 C i j
        let a ← Sequential.rd2 A i k
        let b ← Sequential.rd2 B k j
        Sequential.wr2 C i j (c + a * b)) n C := by
  have hMa0 : 0 ≤ Ma := le_trans (abs_nonneg _) (hMa i j hi hj)
  have hMb0 : 0 ≤ Mb := le_trans (abs_nonneg _) (hMb i j hi hj)
  have hprod : ∀ q, q < n →
      |Sequential.entry A i q * Sequential.entry B q j| ≤ Ma * Mb := by
    intro q hq
    rw [abs_mul]
    exact mul_le_mul (hMa i q hi hq) (hMb q j hq hj) (abs_nonneg _) hMa0
  refine (forLoop_congr_inv _ _
    (fun m s => ∀ v, Sequential.rd2 s i j = some v →
      v = ∑ k ∈ Finset.range m, Sequential.entry A i k * Sequential.entry B k j) n C
    (by intro v hv; simpa using hC v hv) ?_).1
  intro k t hk hinv
  dsimp only
  cases hc : Sequential.rd2 t i j with
  | none => exact ⟨rfl, fun t' ht' => by cases ht'⟩
  | some cv =>
    cases ha : Sequential.rd2 A i k with
    | none => exact ⟨rfl, fun t' ht' => by cases ht'⟩
    | some av =>
      cases hb : Sequential.rd2 B k j with
      | none => exact ⟨rfl, fun t' ht' => by cases ht'⟩
      | some bv =>
        simp only [Option.bind_eq_bind, Option.some_bind]
        have hcv := hinv cv hc
        have hav := Sequential.entry_of_rd2 ha
        have hbv := Sequential.entry_of_rd2 hb
        have hsum : cv + av * bv =
            ∑ q ∈ Finset.range (k + 1), Sequential.entry A i q * Sequential.entry B q j := by
          rw [Finset.sum_range_succ, hcv, hav, hbv]
        have hkn : ((k : Int) + 1) ≤ (n : Int) := by exact_mod_cast hk
        have hMM : 0 ≤ Ma * Mb := mul_nonneg hMa0 hMb0
        have h1 : |av * bv| ≤ 2 ^ 53 := by
          rw [← hav, ← hbv]
          have := hprod k hk
          nlinarith
        have h2 : |cv + av * bv| ≤ 2 ^ 53 := by
          rw [hsum]
          have := abs_partial_sum_le
            (fun q => Sequential.entry A i q * Sequential.entry B q j) (Ma * Mb) (k + 1)
            (fun q hq => hprod q (by omega))
          push_cast at this
          nlinarith
        rw [hrnd _ h1, hrnd _ h2]
        refine ⟨rfl, ?_⟩
        intro t' ht' v hv
        rw [wr2_some_rd2 t t' i j _ ht'] at hv
        cases hv
        exact hsum

/-- The rounded sequential kernel equals the exact one under the smallness
 condition. -/
theorem seq_matrix_multiply_fl_eq (rnd : Int → Int)
    (hrnd : ∀ z : Int, |z| ≤ 2 ^ 53 → rnd z = z)
    (n : Nat) (A B C : Sequential.Mat) (Ma Mb : Int)
    (hMa : ∀ x y, x < n → y < n → |Sequential.entry A x y| ≤ Ma)
    (hMb : ∀ x y, x < n → y < n → |Sequential.entry B x y| ≤ Mb)
    (hbound : (n : Int) * (Ma * Mb) ≤ 2 ^ 53) :
    Sequential.matrix_multiply_fl rnd n A B C = Sequential.matrix_multiply n A B C := by
  unfold Sequential.matrix_multiply_fl Sequential.matrix_multiply
  refine forLoop_congr _ _ n C (fun i C1 hi => ?_)
  refine forLoop_congr _ _ n C1 (fun j C2 hj => ?_)
  dsimp only
  cases hw : Sequential.wr2 C2 i j 0 with
  | none => rfl
  | some C3 =>
    simp only [Option.bind_eq_bind, Option.some_bind]
    refine seq_kLoop_fl_eq rnd hrnd n A B C3 i j hi hj Ma Mb hMa hMb hbound ?_
    intro v hv
    rw [wr2_some_rd2 C2 C3 i j 0 hw] at hv
    cases hv
    rfl

/-- Converting the initial values of the sequential program to `double` is
 exact. -/
theorem seq_init_matrices_fl_eq (rnd : Int → Int)
    (hrnd : ∀ z : Int, |z| ≤ 2 ^ 53 → rnd z = z)
    (n : Nat) (A B : Sequential.Mat) (hn : 2 * (n : Int) ≤ 2 ^ 53) :
    Sequential.init_matrices_fl rnd n A B = Sequential.init_matrices n A B := by
  unfold Sequential.init_matrices_fl Sequential.init_matrices
  refine forLoop_congr _ _ n (A, B) (fun i AB hi => ?_)
  refine forLoop_congr _ _ n AB (fun j AB' hj => ?_)
  have hi' : (i : Int) < (n : Int) := by exact_mod_cast hi
  have hj' : (j : Int) < (n : Int) := by exact_mod_cast hj
  have hi0 : (0 : Int) ≤ (i : Int) := Int.ofNat_nonneg i
  have hj0 : (0 : Int) ≤ (j : Int) := Int.ofNat_nonneg j
  have h1 : |(i : Int) + (j : Int)| ≤ 2 ^ 53 := by
    rw [abs_le]; constructor <;> linarith
  have h2 : |(i : Int) - (j : Int)| ≤ 2 ^ 53 := by
    rw [abs_le]; constructor <;> linarith
  rw [hrnd _ h1, hrnd _ h2]

/-- The sequential program in `double` arithmetic prints what its integer
 model prints, as long as `2 n³` does not exceed `2^53`. -/
theorem seq_main_fl_eq (rnd : Int → Int) (hrnd : ∀ z : Int, |z| ≤ 2 ^ 53 → rnd z = z)
    (n : Nat) (g : Sequential.Junk) (hn : 2 * (n : Int) ^ 3 ≤ 2 ^ 53) :
    Sequential.main_fl rnd n g = Sequential.main n g := by
  have hn0 : (0 : Int) ≤ (n : Int) := Int.ofNat_nonneg n
  obtain ⟨A, B, h1, h2⟩ := Sequential.seq_init_matrices_spec n _ _
    (Sequential.alloc_matrix_IsMat n g.A) (Sequential.alloc_matrix_IsMat n g.B)
  have hsmall : 2 * (n : Int) ≤ 2 ^ 53 := by
    rcases Nat.eq_zero_or_pos n with h | h
    · subst h; norm_num
    · have h1n : (1 : Int) ≤ (n : Int) := by exact_mod_cast h
      nlinarith [mul_nonneg hn0 hn0, mul_le_mul h1n h1n (by norm_num : (0 : Int) ≤ 1) hn0]
  have hMa : ∀ x y, x < n → y < n → |Sequential.entry A x y| ≤ 2 * (n : Int) := by
    intro x y hx hy
    have hx' : (x : Int) < (n : Int) := by exact_mod_cast hx
    have hy' : (y : Int) < (n : Int) := by exact_mod_cast hy
    have hx0 : (0 : Int) ≤ (x : Int) := Int.ofNat_nonneg x
    have hy0 : (0 : Int) ≤ (y : Int) := Int.ofNat_nonneg y
    rw [Sequential.entry_of_rd2 (h2 x y hx hy).1, abs_le]
    constructor <;> linarith
  have hMb : ∀ x y, x < n → y < n → |Sequential.entry B x y| ≤ (n : Int) := by
    intro x y hx hy
    have hx' : (x : Int) < (n : Int) := by exact_mod_cast hx
    have hy' : (y : Int) < (n : Int) := by exact_mod_cast hy
    have hx0 : (0 : Int) ≤ (x : Int) := Int.ofNat_nonneg x
    have hy0 : (0 : Int) ≤ (y : Int) := Int.ofNat_nonneg y
    rw [Sequential.entry_of_rd2 (h2 x y hx hy).2, abs_le]
    constructor <;> linarith
  unfold Sequential.main_fl Sequential.main
  rw [seq_init_matrices_fl_eq rnd hrnd n _ _ hsmall, h1]
  simp only [Option.bind_eq_bind, Option.some_bind]
  rw [seq_matrix_multiply_fl_eq rnd hrnd n A B _ (2 * (n : Int)) (n : Int) hMa hMb
    (by nlinarith)]

/-- On the built-in inputs every product and every partial sum of the
 accumulation is at most `2 n³` in absolute value. -/
theorem builtin_partial_sums (n i j k m : Nat) (hi : i < n) (hj : j < n) (hk : k < n)
    (hm : m ≤ n) :
    |((i : Int) + (k : Int)) * ((k : Int) - (j : Int))| ≤ 2 * (n : Int) ^ 3 ∧
    |∑ q ∈ Finset.range m, ((i : Int) + (q : Int)) * ((q : Int) - (j : Int))| ≤
      2 * (n : Int) ^ 3 := by
  have hi' : (i : Int) < (n : Int) := by exact_mod_cast hi
  have hj' : (j : Int) < (n : Int) := by exact_mod_cast hj
  have hm' : (m : Int) ≤ (n : Int) := by exact_mod_cast hm
  have hi0 : (0 : Int) ≤ (i : Int) := Int.ofNat_nonneg i
  have hj0 : (0 : Int) ≤ (j : Int) := Int.ofNat_nonneg j
  have hm0 : (0 : Int) ≤ (m : Int) := Int.ofNat_nonneg m
  have hn1 : (1 : Int) ≤ (n : Int) := by linarith
  have hterm : ∀ q, q < n →
      |((i : Int) + (q : Int)) * ((q : Int) - (j : Int))| ≤ 2 * (n : Int) * (n : Int) := by
    intro q hq
    have hq' : (q : Int) < (n : Int) := by exact_mod_cast hq
    have hq0 : (0 : Int) ≤ (q : Int) := Int.ofNat_nonneg q
    rw [abs_mul]
    have ha : |(i : Int) + (q : Int)| ≤ 2 * (n : Int) := by
      rw [abs_le]; constructor <;> linarith
    have hb : |(q : Int) - (j : Int)| ≤ (n : Int) := by
      rw [abs_le]; constructor <;> linarith
    exact mul_le_mul ha hb (abs_nonneg _) (by linarith)
  constructor
  · have := hterm k hk
    nlinarith [mul_nonneg (by linarith : (0 : Int) ≤ (n : Int)) (by linarith : (0 : Int) ≤ (n : Int))]
  · have := abs_partial_sum_le (fun q => ((i : Int) + (q : Int)) * ((q : Int) - (j : Int)))
      (2 * (n : Int) * (n : Int)) m (fun q hq => hterm q (by omega))
    have hnn : (0 : Int) ≤ 2 * (n : Int) * (n : Int) := by nlinarith
    have : (m : Int) * (2 * (n : Int) * (n : Int)) ≤ (n : Int) * (2 * (n : Int) * (n : Int)) :=
      mul_le_mul_of_nonneg_right hm' hnn
    nlinarith

/-- With index arithmetic on unbounded naturals: for every `n` and every
 `P ≥ 1`, divisible or not,
 `(n / P) * n ≤ n * n / P` and `P * (n * n / P) ≤ n * n`; hence every index
 `i*n+j`, `i*n+k` used by `matrix_multiply(n / P, n, local_A, B, local_C)`
 lies inside the `n*n/P`-cell buffers `local_A` and `local_C`, every index
 `k*n+j` lies inside the `n*n`-cell `B`, and the gathered chunks fit inside
 the `n*n`-cell `C`: on every rank the checked kernel call returns, the
 checked pipeline returns and the checked `main` returns. -/
theorem in_bounds_nat (n world_size : Nat) (A B : Buf) (g : Distributed.Junk)
    (hP : 1 ≤ world_size) (hA : A.length = n * n) (hB : B.length = n * n) :
    n / world_size * n ≤ n * n / world_size ∧
    world_size * (n * n / world_size) ≤ n * n ∧
    (∀ i j k, i < n / world_size → j < n → k < n →
      i * n + j < n * n / world_size ∧ i * n + k < n * n / world_size ∧ k * n + j < n * n) ∧
    (∀ r, r < world_size → r * (n * n / world_size) + n * n / world_size ≤ n * n) ∧
    (∀ r, r < world_size → ∃ LA LC,
      Distributed.rank_local_A n world_size A g r = some LA ∧
      LA.length = n * n / world_size ∧
      Distributed.matrix_multiply (n / world_size) n LA B
        (malloc (n * n / world_size) (g.local_C r)) = some LC ∧
      LC.length = n * n / world_size) ∧
    (∃ C, Distributed.pipeline n world_size A B (malloc (n * n) g.C) g = some C ∧
      C.length = n * n) ∧
    (Distributed.main n world_size g).isSome = true := by
  have hrows : n / world_size * n ≤ n * n / world_size := rows_mul_le_chunk n world_size hP
  have hfit : world_size * (n * n / world_size) ≤ n * n := chunks_le n world_size
  refine ⟨hrows, hfit, ?_, ?_, ?_, ?_, ?_⟩
  · intro i j k hi hj hk
    exact ⟨lt_of_lt_of_le (idx_lt hi hj) hrows, lt_of_lt_of_le (idx_lt hi hk) hrows,
      idx_lt hk hj⟩
  · intro r hr
    have h := Nat.mul_le_mul_right (n * n / world_size) (Nat.succ_le_of_lt hr)
    rw [Nat.succ_mul] at h
    exact le_trans h hfit
  · intro r hr
    obtain ⟨LA, h1, h2, _⟩ := Distributed.rank_local_A_spec n world_size A g r hA hr
    have h2' : LA.length = n * n / world_size := h2
    obtain ⟨LC, k1, k2, _⟩ := Distributed.matrix_multiply_spec (n / world_size) n LA B
      (malloc (n * n / world_size) (g.local_C r)) (by rw [h2']; exact hrows) (by rw [hB])
      (by rw [malloc_length]; exact hrows)
    exact ⟨LA, LC, h1, h2', k1, by rw [k2, malloc_length]⟩
  · obtain ⟨C, h1, h2, _⟩ := run_total n world_size A B g hP hA hB
    exact ⟨C, h1, h2⟩
  · obtain ⟨A', B', h1, h2, h3, _⟩ := main_init n g
    obtain ⟨C, _, _, k3⟩ := run_total n world_size A' B' g hP h2 h3
    rw [main_eq_run n world_size g A' B' h1, k3]
    rfl

/-! ## `int` index arithmetic -/

theorem int_expr_of_le {v : Nat} (h : v ≤ INT_MAX) : int_expr v = some v := by
  simp [int_expr, h]

theorem int_sexpr_of_le {z : Int} (h1 : -(INT_MAX : Int) - 1 ≤ z) (h2 : z ≤ (INT_MAX : Int)) :
    int_sexpr z = some z := by
  simp [int_sexpr, h1, h2]

/-- When `n * n` fits in `int` the kernel called with at most `n` rows
 computes no index that overflows. -/
theorem matrix_multiply_int_eq (rows n : Nat) (A B C : Buf) (hrows : rows ≤ n)
    (hn : n * n ≤ INT_MAX) :
    Distributed.matrix_multiply_int rows n A B C = Distributed.matrix_multiply rows n A B C := by
  have hcell : ∀ x y, x < n → y < n → x * n + y ≤ INT_MAX := fun x y hx hy =>
    le_trans (Nat.le_of_lt (idx_lt hx hy)) hn
  unfold Distributed.matrix_multiply_int Distributed.matrix_multiply
  refine forLoop_congr _ _ rows C (fun i C1 hi => ?_)
  refine forLoop_congr _ _ n C1 (fun j C2 hj => ?_)
  have hi' : i < n := lt_of_lt_of_le hi hrows
  rw [int_expr_of_le (hcell i j hi' hj)]
  simp only [Option.bind_eq_bind, Option.some_bind]
  cases wr C2 (i * n + j) 0 with
  | none => rfl
  | some C3 =>
    simp only [Option.some_bind]
    refine forLoop_congr _ _ n C3 (fun k C4 hk => ?_)
    dsimp only
    rw [int_expr_of_le (hcell i k hi' hk), int_expr_of_le (hcell k j hk hj)]
    simp only [Option.bind_eq_bind, Option.some_bind]

/-- When `n * n` fits in `int` the initialisation overflows nowhere. -/
theorem init_matrices_int_eq (n : Nat) (A B : Buf) (hn : n * n ≤ INT_MAX) :
    Distributed.init_matrices_int n A B = Distributed.init_matrices n A B := by
  unfold Distributed.init_matrices_int Distributed.init_matrices
  refine forLoop_congr _ _ n (A, B) (fun i AB hi => ?_)
  refine forLoop_congr _ _ n AB (fun j AB' hj => ?_)
  have hnn : n ≤ INT_MAX := le_trans (Nat.le_mul_self n) hn
  have hcell : i * n + j ≤ INT_MAX := le_trans (Nat.le_of_lt (idx_lt hi hj)) hn
  have hi' : (i : Int) < (n : Int) := by exact_mod_cast hi
  have hj' : (j : Int) < (n : Int) := by exact_mod_cast hj
  have hi0 : (0 : Int) ≤ (i : Int) := Int.ofNat_nonneg i
  have hj0 : (0 : Int) ≤ (j : Int) := Int.ofNat_nonneg j
  have hn' : (n : Int) ≤ (INT_MAX : Int) := by exact_mod_cast hnn
  have hn2 : 2 * (n : Int) ≤ (INT_MAX : Int) + 2 := by
    rcases Nat.lt_or_ge n 2 with h | h
    · have : (n : Int) < 2 := by exact_mod_cast h
      have hpos : (0 : Int) ≤ (INT_MAX : Int) := Int.ofNat_nonneg _
      linarith
    · have h2n : 2 * n ≤ n * n := Nat.mul_le_mul_right n h
      have : 2 * n ≤ INT_MAX := le_trans h2n hn
      have : ((2 * n : Nat) : Int) ≤ (INT_MAX : Int) := by exact_mod_cast this
      push_cast at this
      linarith
  rw [int_expr_of_le hcell, int_sexpr_of_le (by linarith) (by linarith),
    int_sexpr_of_le (by linarith) (by linarith)]
  simp only [Option.bind_eq_bind, Option.some_bind]

/-- When `n * n` fits in `int` the print loop overflows nowhere. -/
theorem print_matrix_int_eq (n : Nat) (C : Buf) (hn : n * n ≤ INT_MAX) :
    Distributed.print_matrix_int n C = Distributed.print_matrix n C := by
  unfold Distributed.print_matrix_int Distributed.print_matrix
  refine forLoop_congr _ _ n [] (fun i out hi => ?_)
  dsimp only
  congr 1
  refine forLoop_congr _ _ n [] (fun j line hj => ?_)
  dsimp only
  rw [int_expr_of_le (le_trans (Nat.le_of_lt (idx_lt hi hj)) hn)]
  simp only [Option.bind_eq_bind, Option.some_bind]
  cases rd C (i * n + j) <;> rfl

theorem rank_B_int_eq (n : Nat) (B : Buf) (g : Distributed.Junk) (r : Nat)
    (hn : n * n ≤ INT_MAX) : Distributed.rank_B_int n B g r = Distributed.rank_B n B g r := by
  unfold Distributed.rank_B_int Distributed.rank_B Distributed.bcast_count
  rw [int_expr_of_le hn]
  rfl

theorem rank_local_A_int_eq (n world_size : Nat) (A : Buf) (g : Distributed.Junk) (r : Nat)
    (hn : n * n ≤ INT_MAX) :
    Distributed.rank_local_A_int n world_size A g r =
      Distributed.rank_local_A n world_size A g r := by
  unfold Distributed.rank_local_A_int Distributed.rank_local_A Distributed.chunk_count
  rw [int_expr_of_le hn]
  rfl

theorem rank_local_C_int_eq (n world_size : Nat) (A B : Buf) (g : Distributed.Junk) (r : Nat)
    (hn : n * n ≤ INT_MAX) :
    Distributed.rank_local_C_int n world_size A B g r =
      Distributed.rank_local_C n world_size A B g r := by
  unfold Distributed.rank_local_C_int Distributed.rank_local_C Distributed.rows_per_proc
    Distributed.chunk_count
  rw [rank_B_int_eq n B g r hn, rank_local_A_int_eq n world_size A g r hn, int_expr_of_le hn]
  simp only [Option.bind_eq_bind, Option.some_bind]
  cases Distributed.rank_B n B g r with
  | none => rfl
  | some B_r =>
    cases Distributed.rank_local_A n world_size A g r with
    | none => rfl
    | some LA =>
      simp only [Option.some_bind]
      exact matrix_multiply_int_eq _ n LA B_r _ (Nat.div_le_self n world_size) hn

theorem pipeline_int_eq (n world_size : Nat) (A B C : Buf) (g : Distributed.Junk)
    (hn : n * n ≤ INT_MAX) :
    Distributed.pipeline_int n world_size A B C g = Distributed.pipeline n world_size A B C g := by
  have hranks : Distributed.rank_local_C_int n world_size A B g =
      Distributed.rank_local_C n world_size A B g :=
    funext (fun r => rank_local_C_int_eq n world_size A B g r hn)
  unfold Distributed.pipeline_int Distributed.pipeline Distributed.chunk_count
  rw [hranks, int_expr_of_le hn]
  rfl

/-- When `n * n` fits in `int` the program with `int` arithmetic is the
 program with arithmetic on naturals. -/
theorem main_int_eq (n world_size : Nat) (g : Distributed.Junk) (hn : n * n ≤ INT_MAX) :
    Distributed.main_int n world_size g = Distributed.main n world_size g := by
  have hnn : n ≤ INT_MAX := le_trans (Nat.le_mul_self n) hn
  unfold Distributed.main_int Distributed.main Distributed.run_int Distributed.run
  rw [int_expr_of_le hnn, int_expr_of_le hn]
  simp only [Option.bind_eq_bind, Option.some_bind]
  rw [init_matrices_int_eq n _ _ hn]
  cases Distributed.init_matrices n (malloc (n * n) g.A) (malloc (n * n) g.B) with
  | none => rfl
  | some AB =>
    simp only [Option.some_bind]
    rw [pipeline_int_eq n world_size AB.1 AB.2 _ g hn]
    cases Distributed.pipeline n world_size AB.1 AB.2 (malloc (n * n) g.C) g with
    | none => rfl
    | some C =>
      simp only [Option.some_bind]
      rw [print_matrix_int_eq n C hn]

/-! ## The claims -/

/-- C1: for every `rows`, `n`, every `A` of `rows * n` cells, every `B` of
 `n * n` cells and every initial content of `C` (`rows * n` cells), the kernel
 call `matrix_multiply(rows, n, A, B, C)` of the distributed file returns and
 afterwards `C[i*n+j]` is the sum over `k < n` of `A[i*n+k] * B[k*n+j]` for
 all `i < rows`, `j < n`: the accumulation starts from zero, the prior
 content of the cell does not enter. -/
theorem C1_kernel_computes_product (rows n : Nat) (A B C : Buf)
    (hA : A.length = rows * n) (hB : B.length = n * n) (hC : C.length = rows * n) :
    ∃ C', Distributed.matrix_multiply rows n A B C = some C' ∧ C'.length = rows * n ∧
      ∀ i j, i < rows → j < n →
        C'[i * n + j]? =
          some (∑ k ∈ Finset.range n, A.getD (i * n + k) 0 * B.getD (k * n + j) 0) := by
  obtain ⟨C', h1, h2, h3, _⟩ := Distributed.matrix_multiply_spec rows n A B C
    (by rw [hA]) (by rw [hB]) (by rw [hC])
  exact ⟨C', h1, by rw [h2, hC], h3⟩

/-- C1 at a 1 × 2 row block times a 2 × 2 matrix, with junk in `C`. -/
theorem C1_witness :
    (([1, 2] : Buf).length = 1 * 2 ∧ ([3, 4, 5, 6] : Buf).length = 2 * 2 ∧
      ([9, 9] : Buf).length = 1 * 2) ∧
    ∃ C', Distributed.matrix_multiply 1 2 [1, 2] [3, 4, 5, 6] [9, 9] = some C' ∧
      C'.length = 1 * 2 ∧
      ∀ i j, i < 1 → j < 2 →
        C'[i * 2 + j]? = some (∑ k ∈ Finset.range 2,
          ([1, 2] : Buf).getD (i * 2 + k) 0 * ([3, 4, 5, 6] : Buf).getD (k * 2 + j) 0) :=
  ⟨⟨rfl, rfl, rfl⟩, C1_kernel_computes_product 1 2 [1, 2] [3, 4, 5, 6] [9, 9] rfl rfl rfl⟩

/-- C2: for every `N ≥ 1`, every `P ≥ 1` dividing `N` and all `N × N`
 matrices `A`, `B`, the matrix assembled on the root by scatter, per-rank
 kernel call and gather equals, cell for cell, the matrix the sequential
 reference kernel computes from the same `A` and `B`; both computations
 return. -/
theorem C2_distributed_equals_sequential (n world_size : Nat) (A B C0 : Buf)
    (g : Distributed.Junk) (A2 B2 C2 : Sequential.Mat)
    (_hn : 1 ≤ n) (hP : 1 ≤ world_size) (hdiv : world_size ∣ n)
    (hA : A.length = n * n) (hB : B.length = n * n) (hC0 : C0.length = n * n)
    (hA2 : Sequential.SameMatrix n A2 A) (hB2 : Sequential.SameMatrix n B2 B)
    (hC2 : Sequential.IsMat n C2) :
    ∃ C Cseq, Distributed.pipeline n world_size A B C0 g = some C ∧
      Sequential.matrix_multiply n A2 B2 C2 = some Cseq ∧ C.length = n * n ∧
      ∀ i j, i < n → j < n →
        ∃ v, C[i * n + j]? = some v ∧ Sequential.rd2 Cseq i j = some v := by
  exact pipeline_eq_sequential n world_size A B C0 g A2 B2 C2 hP hdiv hA hB hC0 hA2 hB2 hC2

/-- C2 at `N = 2`, `P = 2`. -/
theorem C2_witness :
    (1 ≤ 2 ∧ 1 ≤ 2 ∧ 2 ∣ 2 ∧ ([1, 2, 3, 4] : Buf).length = 2 * 2 ∧
      ([5, 6, 7, 8] : Buf).length = 2 * 2 ∧ ([9, 9, 9, 9] : Buf).length = 2 * 2 ∧
      Sequential.SameMatrix 2 [[1, 2], [3, 4]] [1, 2, 3, 4] ∧
      Sequential.SameMatrix 2 [[5, 6], [7, 8]] [5, 6, 7, 8] ∧
      Sequential.IsMat 2 [[0, 0], [0, 0]]) ∧
    ∃ C Cseq, Distributed.pipeline 2 2 [1, 2, 3, 4] [5, 6, 7, 8] [9, 9, 9, 9] junk7 = some C ∧
      Sequential.matrix_multiply 2 [[1, 2], [3, 4]] [[5, 6], [7, 8]] [[0, 0], [0, 0]] =
        some Cseq ∧ C.length = 2 * 2 ∧
      ∀ i j, i < 2 → j < 2 →
        ∃ v, C[i * 2 + j]? = some v ∧ Sequential.rd2 Cseq i j = some v :=
  ⟨⟨by decide, by decide, by decide, rfl, rfl, rfl, by unfold Sequential.SameMatrix; decide,
      by unfold Sequential.SameMatrix; decide, by unfold Sequential.IsMat; decide⟩,
    C2_distributed_equals_sequential 2 2 [1, 2, 3, 4] [5, 6, 7, 8] [9, 9, 9, 9] junk7
      [[1, 2], [3, 4]] [[5, 6], [7, 8]] [[0, 0], [0, 0]] (by decide) (by decide) (by decide)
      rfl rfl rfl (by unfold Sequential.SameMatrix; decide)
      (by unfold Sequential.SameMatrix; decide) (by unfold Sequential.IsMat; decide)⟩

/-- C3: for every `N ≥ 1`, every `P ≥ 1` dividing `N` and every `N × N`
 row-major matrix `M`, scattering `M` in `P` chunks of `N*N/P` cells and
 gathering chunk `r` back at offset `r * (N*N/P)` yields `M` itself; and in
 the pipeline row `i` of the result is the local row `i % (N/P)` computed by
 rank `i / (N/P)`, whose input row is row `i` of `A`. -/
theorem C3_scatter_gather_row_identity (n world_size : Nat) (M A B C0 : Buf)
    (g : Distributed.Junk) (_hn : 1 ≤ n) (hP : 1 ≤ world_size) (hdiv : world_size ∣ n)
    (hM : M.length = n * n) (hA : A.length = n * n) (hB : B.length = n * n)
    (hC0 : C0.length = n * n) :
    (∃ chunks, Distributed.all_ranks world_size (Distributed.rank_local_A n world_size M g) =
        some chunks ∧
      Distributed.MPI_Gather chunks (Distributed.chunk_count n world_size) C0 = some M) ∧
    ∀ i, i < n →
      i / (n / world_size) < world_size ∧
      ∃ LA LC C,
        Distributed.rank_local_A n world_size A g (i / (n / world_size)) = some LA ∧
        Distributed.rank_local_C n world_size A B g (i / (n / world_size)) = some LC ∧
        Distributed.pipeline n world_size A B C0 g = some C ∧
        ∀ j, j < n →
          LA[i % (n / world_size) * n + j]? = A[i * n + j]? ∧
          C[i * n + j]? = LC[i % (n / world_size) * n + j]? ∧
          LC[i % (n / world_size) * n + j]? = some (∑ k ∈ Finset.range n,
            LA.getD (i % (n / world_size) * n + k) 0 * B.getD (k * n + j) 0) := by
  have hcc := Distributed.chunk_count_of_dvd n world_size hP hdiv
  have hfull : world_size * Distributed.chunk_count n world_size = n * n := by
    rw [hcc, ← Nat.mul_assoc, Nat.mul_div_cancel' hdiv]
  refine ⟨scatter_gather_roundtrip n world_size M C0 g hfull hM hC0, ?_⟩
  intro i hi
  obtain ⟨hr, ht, hidx⟩ := Distributed.row_split n world_size i hP hdiv hi
  obtain ⟨LA, hLA, hLAlen, hLAget⟩ :=
    Distributed.rank_local_A_spec n world_size A g (i / (n / world_size)) hA hr
  obtain ⟨LC, hLC, _, hLCget, _⟩ :=
    Distributed.rank_local_C_spec n world_size A B g (i / (n / world_size)) hP hA hB hr
  obtain ⟨C, hC, _, hCget⟩ :=
    Distributed.pipeline_div_spec n world_size A B C0 g hP hdiv hA hB hC0
  have hrow : ∀ j, j < n → LA[i % (n / world_size) * n + j]? = A[i * n + j]? := by
    intro j hj
    rw [hLAget _ (by rw [hcc]; exact idx_lt ht hj), hidx j]
  have hsum : ∀ j, (∑ k ∈ Finset.range n,
      A.getD (i / (n / world_size) * Distributed.chunk_count n world_size +
        (i % (n / world_size) * n + k)) 0 * B.getD (k * n + j) 0) =
      ∑ k ∈ Finset.range n,
        LA.getD (i % (n / world_size) * n + k) 0 * B.getD (k * n + j) 0 := by
    intro j
    refine Finset.sum_congr rfl (fun k hk => ?_)
    rw [getD_congr (hrow k (Finset.mem_range.mp hk)), hidx k]
  refine ⟨hr, LA, LC, C, hLA, hLC, hC, fun j hj => ⟨hrow j hj, ?_, ?_⟩⟩
  · rw [hCget i j hi hj, hLCget _ j ht hj]
    unfold Distributed.dot
    congr 1
    refine Finset.sum_congr rfl (fun k _ => ?_)
    rw [hidx k]
  · rw [hLCget _ j ht hj, hsum j]

/-- C3 at `N = 2`, `P = 2`. -/
theorem C3_witness :
    (1 ≤ 2 ∧ 1 ≤ 2 ∧ 2 ∣ 2 ∧ ([1, 2, 3, 4] : Buf).length = 2 * 2 ∧
      ([1, 2, 3, 4] : Buf).length = 2 * 2 ∧ ([5, 6, 7, 8] : Buf).length = 2 * 2 ∧
      ([9, 9, 9, 9] : Buf).length = 2 * 2) ∧
    ((∃ chunks, Distributed.all_ranks 2 (Distributed.rank_local_A 2 2 [1, 2, 3, 4] junk7) =
        some chunks ∧
      Distributed.MPI_Gather chunks (Distributed.chunk_count 2 2) [9, 9, 9, 9] =
        some [1, 2, 3, 4]) ∧
    ∀ i, i < 2 →
      i / (2 / 2) < 2 ∧
      ∃ LA LC C,
        Distributed.rank_local_A 2 2 [1, 2, 3, 4] junk7 (i / (2 / 2)) = some LA ∧
        Distributed.rank_local_C 2 2 [1, 2, 3, 4] [5, 6, 7, 8] junk7 (i / (2 / 2)) = some LC ∧
        Distributed.pipeline 2 2 [1, 2, 3, 4] [5, 6, 7, 8] [9, 9, 9, 9] junk7 = some C ∧
        ∀ j, j < 2 →
          LA[i % (2 / 2) * 2 + j]? = ([1, 2, 3, 4] : Buf)[i * 2 + j]? ∧
          C[i * 2 + j]? = LC[i % (2 / 2) * 2 + j]? ∧
          LC[i % (2 / 2) * 2 + j]? = some (∑ k ∈ Finset.range 2,
            LA.getD (i % (2 / 2) * 2 + k) 0 * ([5, 6, 7, 8] : Buf).getD (k * 2 + j) 0)) :=
  ⟨⟨by decide, by decide, by decide, rfl, rfl, rfl, rfl⟩,
    C3_scatter_gather_row_identity 2 2 [1, 2, 3, 4] [1, 2, 3, 4] [5, 6, 7, 8] [9, 9, 9, 9] junk7
      (by decide) (by decide) (by decide) rfl rfl rfl rfl⟩

/-- C4 (as stated, refuted): with `N = 3` and `P = 2`, where 2 does not
 divide 3, the program is not rejected: it runs to the end, prints a matrix
 and returns exit code 0. -/
theorem C4_counterexample :
    ¬ (2 ∣ 3) ∧
    Distributed.main 3 2 junk7 = some ⟨[[5, 2, -1], [7, 7, 0], [-7, 7, 7]], 0⟩ := by
  decide

/-- C4 (amended): for every `N` and `P ≥ 1` such that `P` does not divide `N`
 the program performs no check: initialisation, broadcast, scatter, kernel
 call and gather all complete with the truncated counts, the `N × N` cells of
 the root's `C` are printed and `main` returns exit code 0. -/
theorem C4_no_rejection (n world_size : Nat) (g : Distributed.Junk)
    (hP : 1 ≤ world_size) (_hnd : ¬ world_size ∣ n) :
    ∃ A B C,
      Distributed.init_matrices n (malloc (n * n) g.A) (malloc (n * n) g.B) = some (A, B) ∧
      Distributed.pipeline n world_size A B (malloc (n * n) g.C) g = some C ∧
      Distributed.main n world_size g = some ⟨rows_of n C, 0⟩ ∧
      (rows_of n C).length = n ∧ ∀ row ∈ rows_of n C, row.length = n := by
  obtain ⟨A, B, h1, h2, h3, _⟩ := main_init n g
  obtain ⟨C, k1, _, k3⟩ := run_total n world_size A B g hP h2 h3
  refine ⟨A, B, C, h1, k1, ?_, rows_of_length n C, rows_of_row_length n C⟩
  rw [main_eq_run n world_size g A B h1, k3]

/-- C4 (amended) at `N = 3`, `P = 2`. -/
theorem C4_witness :
    (1 ≤ 2 ∧ ¬ (2 ∣ 3)) ∧
    ∃ A B C,
      Distributed.init_matrices 3 (malloc (3 * 3) junk7.A) (malloc (3 * 3) junk7.B) =
        some (A, B) ∧
      Distributed.pipeline 3 2 A B (malloc (3 * 3) junk7.C) junk7 = some C ∧
      Distributed.main 3 2 junk7 = some ⟨rows_of 3 C, 0⟩ ∧
      (rows_of 3 C).length = 3 ∧ ∀ row ∈ rows_of 3 C, row.length = 3 :=
  ⟨by decide, C4_no_rejection 3 2 junk7 (by decide) (by decide)⟩

/-- C6 (as stated, refuted): with `N = 3`, `P = 2`, all-zero `A` and `B` and
 junk value 7 in the allocated blocks, the printed matrix is not zero: the
 never-written tail cell of each `local_C` and the last cell of `C` show. -/
theorem C6_counterexample :
    Distributed.run 3 2 (List.replicate 9 0) (List.replicate 9 0) junk7 =
      some ⟨[[0, 0, 0], [7, 0, 0], [0, 7, 7]], 0⟩ := by
  decide

/-- C6 (amended): for every `N ≥ 1` and every `P ≥ 1` that divides `N`, if
 every entry of `A` and of `B` is 0 then every one of the `N * N` printed
 entries of `C` is 0, whatever the initial contents of the allocated blocks
 were. -/
theorem C6_zero_matrix (n world_size : Nat) (A B : Buf) (g : Distributed.Junk)
    (_hn : 1 ≤ n) (hP : 1 ≤ world_size) (hdiv : world_size ∣ n)
    (hA : A.length = n * n) (hB : B.length = n * n)
    (hA0 : ∀ x ∈ A, x = 0) (_hB0 : ∀ x ∈ B, x = 0) :
    Distributed.run n world_size A B g =
      some ⟨List.replicate n (List.replicate n 0), 0⟩ := by
  rw [run_div_spec n world_size A B g hP hdiv hA hB]
  have hdot : ∀ i j, Distributed.dot n A B i j = 0 := by
    intro i j
    unfold Distributed.dot
    refine Finset.sum_eq_zero (fun k _ => ?_)
    rw [getD_eq_zero_of_all_zero A hA0, zero_mul]
  simp only [hdot, List.map_const', List.length_range]

/-- C6 (amended) at `N = 2`, `P = 2`. -/
theorem C6_witness :
    (1 ≤ 2 ∧ 1 ≤ 2 ∧ 2 ∣ 2 ∧ (List.replicate 4 0 : Buf).length = 2 * 2 ∧
      (List.replicate 4 0 : Buf).length = 2 * 2 ∧
      (∀ x ∈ (List.replicate 4 0 : Buf), x = 0) ∧ (∀ x ∈ (List.replicate 4 0 : Buf), x = 0)) ∧
    Distributed.run 2 2 (List.replicate 4 0) (List.replicate 4 0) junk7 =
      some ⟨List.replicate 2 (List.replicate 2 0), 0⟩ :=
  ⟨⟨by decide, by decide, by decide, rfl, rfl, by decide, by decide⟩,
    C6_zero_matrix 2 2 (List.replicate 4 0) (List.replicate 4 0) junk7 (by decide) (by decide)
      (by decide) rfl rfl (by decide) (by decide)⟩

/-- C7 (as stated, refuted): with `N = 3`, `P = 2` and the same operands
 `A = [1..9]`, `B = [9..1]`, a run whose allocated blocks initially hold 7 and
 a run whose blocks initially hold 1 print different matrices. -/
theorem C7_counterexample :
    Distributed.run 3 2 [1, 2, 3, 4, 5, 6, 7, 8, 9] [9, 8, 7, 6, 5, 4, 3, 2, 1] junk7 =
      some ⟨[[30, 24, 18], [7, 102, 84], [66, 7, 7]], 0⟩ ∧
    Distributed.run 3 2 [1, 2, 3, 4, 5, 6, 7, 8, 9] [9, 8, 7, 6, 5, 4, 3, 2, 1] junk1 =
      some ⟨[[30, 24, 18], [1, 102, 84], [66, 1, 1]], 0⟩ := by
  decide

/-- C7 (amended): for every `N ≥ 1`, every `P ≥ 1` that divides `N` and all
 `A`, `B`, two runs on the same `A` and `B` print the same matrix even when
 the initial contents of all allocated blocks differ between the runs; both
 runs return. -/
theorem C7_junk_independent (n world_size : Nat) (A B : Buf) (g1 g2 : Distributed.Junk)
    (_hn : 1 ≤ n) (hP : 1 ≤ world_size) (hdiv : world_size ∣ n)
    (hA : A.length = n * n) (hB : B.length = n * n) :
    Distributed.run n world_size A B g1 = Distributed.run n world_size A B g2 ∧
      (Distributed.run n world_size A B g1).isSome = true := by
  rw [run_div_spec n world_size A B g1 hP hdiv hA hB,
    run_div_spec n world_size A B g2 hP hdiv hA hB]
  exact ⟨rfl, rfl⟩

/-- C7 (amended) at `N = 2`, `P = 2`. -/
theorem C7_witness :
    (1 ≤ 2 ∧ 1 ≤ 2 ∧ 2 ∣ 2 ∧ ([1, 2, 3, 4] : Buf).length = 2 * 2 ∧
      ([5, 6, 7, 8] : Buf).length = 2 * 2) ∧
    (Distributed.run 2 2 [1, 2, 3, 4] [5, 6, 7, 8] junk7 =
        Distributed.run 2 2 [1, 2, 3, 4] [5, 6, 7, 8] junk1 ∧
      (Distributed.run 2 2 [1, 2, 3, 4] [5, 6, 7, 8] junk7).isSome = true) :=
  ⟨⟨by decide, by decide, by decide, rfl, rfl⟩,
    C7_junk_independent 2 2 [1, 2, 3, 4] [5, 6, 7, 8] junk7 junk1 (by decide) (by decide)
      (by decide) rfl rfl⟩

/-- C8: for every `N ≥ 1` and all `N × N` matrices `A`, `B`, the pipeline run
 with `P = 1` uses one chunk of `N * N` cells and `N` rows, its result is the
 result of the single kernel call `matrix_multiply(N, N, A, B, local_C)` on
 the flat buffers, and `C[i*N+j]` equals the entry `C[i][j]` the sequential
 kernel of `matrix_multiplication.c` produces, for all `i, j < N`. -/
theorem C8_single_process (n : Nat) (A B C0 : Buf) (g : Distributed.Junk)
    (A2 B2 C2 : Sequential.Mat) (_hn : 1 ≤ n)
    (hA : A.length = n * n) (hB : B.length = n * n) (hC0 : C0.length = n * n)
    (hA2 : Sequential.SameMatrix n A2 A) (hB2 : Sequential.SameMatrix n B2 B)
    (hC2 : Sequential.IsMat n C2) :
    Distributed.chunk_count n 1 = n * n ∧ Distributed.rows_per_proc n 1 = n ∧
    ∃ C Cseq, Distributed.pipeline n 1 A B C0 g = some C ∧
      Distributed.matrix_multiply n n A B (malloc (n * n) (g.local_C 0)) = some C ∧
      Sequential.matrix_multiply n A2 B2 C2 = some Cseq ∧
      ∀ i j, i < n → j < n →
        ∃ v, C[i * n + j]? = some v ∧ Sequential.rd2 Cseq i j = some v := by
  obtain ⟨C, Cseq, h1, h2, h3, h4⟩ := pipeline_eq_sequential n 1 A B C0 g A2 B2 C2
    (Nat.le_refl 1) (one_dvd n) hA hB hC0 hA2 hB2 hC2
  obtain ⟨C', p1, _, p3⟩ := Distributed.pipeline_div_spec n 1 A B C0 g (Nat.le_refl 1)
    (one_dvd n) hA hB hC0
  obtain ⟨K, k1, k2, k3, _⟩ := Distributed.matrix_multiply_spec n n A B
    (malloc (n * n) (g.local_C 0)) (by rw [hA]) (by rw [hB]) (by rw [malloc_length])
  rw [h1] at p1
  have hCK : K = C := by
    refine buf_ext_cells n K C (by rw [k2, malloc_length]) h3 (fun i j hi hj => ?_)
    rw [k3 i j hi hj, Option.some.inj p1, p3 i j hi hj]
  refine ⟨by simp [Distributed.chunk_count], by simp [Distributed.rows_per_proc],
    C, Cseq, h1, ?_, h2, h4⟩
  rw [k1, hCK]

/-- C8 at `N = 2`. -/
theorem C8_witness :
    (1 ≤ 2 ∧ ([1, 2, 3, 4] : Buf).length = 2 * 2 ∧
      ([5, 6, 7, 8] : Buf).length = 2 * 2 ∧ ([9, 9, 9, 9] : Buf).length = 2 * 2 ∧
      Sequential.SameMatrix 2 [[1, 2], [3, 4]] [1, 2, 3, 4] ∧
      Sequential.SameMatrix 2 [[5, 6], [7, 8]] [5, 6, 7, 8] ∧
      Sequential.IsMat 2 [[0, 0], [0, 0]]) ∧
    (Distributed.chunk_count 2 1 = 2 * 2 ∧ Distributed.rows_per_proc 2 1 = 2 ∧
    ∃ C Cseq, Distributed.pipeline 2 1 [1, 2, 3, 4] [5, 6, 7, 8] [9, 9, 9, 9] junk7 = some C ∧
      Distributed.matrix_multiply 2 2 [1, 2, 3, 4] [5, 6, 7, 8]
        (malloc (2 * 2) (junk7.local_C 0)) = some C ∧
      Sequential.matrix_multiply 2 [[1, 2], [3, 4]] [[5, 6], [7, 8]] [[0, 0], [0, 0]] =
        some Cseq ∧
      ∀ i j, i < 2 → j < 2 →
        ∃ v, C[i * 2 + j]? = some v ∧ Sequential.rd2 Cseq i j = some v) :=
  ⟨⟨by decide, rfl, rfl, rfl, by unfold Sequential.SameMatrix; decide,
      by unfold Sequential.SameMatrix; decide, by unfold Sequential.IsMat; decide⟩,
    C8_single_process 2 [1, 2, 3, 4] [5, 6, 7, 8] [9, 9, 9, 9] junk7
      [[1, 2], [3, 4]] [[5, 6], [7, 8]] [[0, 0], [0, 0]] (by decide)
      rfl rfl rfl (by unfold Sequential.SameMatrix; decide)
      (by unfold Sequential.SameMatrix; decide) (by unfold Sequential.IsMat; decide)⟩

/-- C9: for every `N ≥ 1`, every `P ≥ 1` dividing `N` and every `N × N`
 matrix `A`, if `B` is the identity matrix (`B[i*N+j] = 1` when `i = j`, `0`
 otherwise) then the matrix assembled on the root equals `A` exactly. -/
theorem C9_identity_operand (n world_size : Nat) (A B C0 : Buf) (g : Distributed.Junk)
    (_hn : 1 ≤ n) (hP : 1 ≤ world_size) (hdiv : world_size ∣ n)
    (hA : A.length = n * n) (hB : B.length = n * n) (hC0 : C0.length = n * n)
    (hId : ∀ i, i < n → ∀ j, j < n → B.getD (i * n + j) 0 = if i = j then 1 else 0) :
    Distributed.pipeline n world_size A B C0 g = some A := by
  obtain ⟨C, h1, h2, h3⟩ := Distributed.pipeline_div_spec n world_size A B C0 g hP hdiv hA hB hC0
  rw [h1]
  congr 1
  refine buf_ext_cells n C A h2 hA (fun i j hi hj => ?_)
  rw [h3 i j hi hj, dot_identity n A B (fun i j hi hj => hId i hi j hj) i j hj]
  exact (getElem?_eq_some_getD (by rw [hA]; exact idx_lt hi hj)).symm

/-- C9 at `N = 2`, `P = 2`. -/
theorem C9_witness :
    (1 ≤ 2 ∧ 1 ≤ 2 ∧ 2 ∣ 2 ∧ ([1, 2, 3, 4] : Buf).length = 2 * 2 ∧
      ([1, 0, 0, 1] : Buf).length = 2 * 2 ∧ ([9, 9, 9, 9] : Buf).length = 2 * 2 ∧
      (∀ i, i < 2 → ∀ j, j < 2 →
        ([1, 0, 0, 1] : Buf).getD (i * 2 + j) 0 = if i = j then 1 else 0)) ∧
    Distributed.pipeline 2 2 [1, 2, 3, 4] [1, 0, 0, 1] [9, 9, 9, 9] junk7 =
      some [1, 2, 3, 4] :=
  ⟨⟨by decide, by decide, by decide, rfl, rfl, rfl, by decide⟩,
    C9_identity_operand 2 2 [1, 2, 3, 4] [1, 0, 0, 1] [9, 9, 9, 9] junk7 (by decide)
      (by decide) (by decide) rfl rfl rfl (by decide)⟩

/-- C10: with the built-in initialisation `A[i][j] = i + j`, `B[i][j] = i - j`,
 for every `N ≥ 1` and every `P ≥ 1` dividing `N` the distributed program
 prints `C[i][j] = Σ_{k<N} (i + k)(k - j) = N(N-1)(2N-1)/6 + (i - j)·N(N-1)/2
 - N·i·j` for all `i, j < N` and returns 0, and the sequential program prints
 the same values. -/
theorem C10_builtin_inputs (n world_size : Nat) (g : Distributed.Junk) (gs : Sequential.Junk)
    (_hn : 1 ≤ n) (hP : 1 ≤ world_size) (hdiv : world_size ∣ n) :
    (∀ i j : Nat, (∑ k ∈ Finset.range n, ((i : Int) + (k : Int)) * ((k : Int) - (j : Int))) =
      closed_form_cell n i j) ∧
    Distributed.main n world_size g = some ⟨(List.range n).map (fun i =>
      (List.range n).map (fun j => closed_form_cell n i j)), 0⟩ ∧
    Sequential.main n gs = some ((List.range n).map (fun i =>
      (List.range n).map (fun j => closed_form_cell n i j)), 0) := by
  exact ⟨fun i j => builtin_sum n i j, main_builtin n world_size g hP hdiv,
    seq_main_builtin n gs⟩

/-- C10 at `N = 4`, `P = 2`: `C[i][j] = 14 + 6(i - j) - 4ij`, that is the rows
 `[14, 8, 2, -4]`, `[20, 10, 0, -10]`, `[26, 12, -2, -16]`, `[32, 14, -4, -22]`,
 from both programs. -/
theorem C10_witness :
    (1 ≤ 4 ∧ 1 ≤ 2 ∧ 2 ∣ 4) ∧
    (∀ i j : Nat, closed_form_cell 4 i j = 14 + 6 * ((i : Int) - (j : Int)) - 4 * i * j) ∧
    Distributed.main 4 2 junk7 =
      some ⟨[[14, 8, 2, -4], [20, 10, 0, -10], [26, 12, -2, -16], [32, 14, -4, -22]], 0⟩ ∧
    Sequential.main 4 seq_junk7 =
      some ([[14, 8, 2, -4], [20, 10, 0, -10], [26, 12, -2, -16], [32, 14, -4, -22]], 0) :=
  ⟨by decide,
    fun i j => by unfold closed_form_cell; norm_num; ring,
    (C10_builtin_inputs 4 2 junk7 seq_junk7 (by decide) (by decide) (by decide)).2.1.trans
      (by decide),
    (C10_builtin_inputs 4 2 junk7 seq_junk7 (by decide) (by decide) (by decide)).2.2.trans
      (by decide)⟩

/-- C11: for every `rows`, `n` and all buffers `A`, `B`, `C` that are large
 enough (`C` possibly longer than `rows * n`, and disjoint from `A` and `B`),
 the call `matrix_multiply(rows, n, A, B, C)` returns, leaves `A` and `B`
 unchanged, keeps the length of `C` and leaves every cell of `C` at an index
 `≥ rows * n` unchanged: the only cells it writes are `C[0 .. rows*n - 1]`. -/
theorem C11_kernel_frame (rows n : Nat) (A B C : Buf)
    (hA : rows * n ≤ A.length) (hB : n * n ≤ B.length) (hC : rows * n ≤ C.length) :
    ∃ m, Distributed.matrix_multiply_mem rows n ⟨A, B, C⟩ = some m ∧
      m.A = A ∧ m.B = B ∧ m.C.length = C.length ∧
      m.C.drop (rows * n) = C.drop (rows * n) ∧
      ∀ t, rows * n ≤ t → m.C[t]? = C[t]? := by
  obtain ⟨C', h1, h2, _, h4⟩ := Distributed.matrix_multiply_spec rows n A B C hA hB hC
  refine ⟨⟨A, B, C'⟩, ?_, rfl, rfl, h2, ?_, h4⟩
  · rw [matrix_multiply_mem_eq, h1]; rfl
  · apply List.ext_getElem?
    intro t
    rw [List.getElem?_drop, List.getElem?_drop]
    exact h4 _ (Nat.le_add_right _ _)

/-- C11 at a 1 × 2 row block with a `C` of four cells: the last two cells keep
 their content. -/
theorem C11_witness :
    (1 * 2 ≤ ([1, 2] : Buf).length ∧ 2 * 2 ≤ ([3, 4, 5, 6] : Buf).length ∧
      1 * 2 ≤ ([9, 9, 8, 7] : Buf).length) ∧
    ∃ m, Distributed.matrix_multiply_mem 1 2 ⟨[1, 2], [3, 4, 5, 6], [9, 9, 8, 7]⟩ = some m ∧
      m.A = [1, 2] ∧ m.B = [3, 4, 5, 6] ∧ m.C.length = ([9, 9, 8, 7] : Buf).length ∧
      m.C.drop (1 * 2) = ([9, 9, 8, 7] : Buf).drop (1 * 2) ∧
      ∀ t, 1 * 2 ≤ t → m.C[t]? = ([9, 9, 8, 7] : Buf)[t]? :=
  ⟨⟨by decide, by decide, by decide⟩,
    C11_kernel_frame 1 2 [1, 2] [3, 4, 5, 6] [9, 9, 8, 7] (by decide) (by decide) (by decide)⟩

/-- C12 (as stated, refuted): with `N = 3`, `P = 2` and the built-in operands,
 rank 1 receives the cells `A[4..7]`, which straddle rows 1 and 2; its local
 row 0 is `[7, 0, -7]` and lands in cells 4..6 of `C`, while row 1 of the true
 product is `[8, 2, -4]` and row 1 of the assembled `C` is `[7, 7, 0]`. -/
theorem C12_counterexample :
    ¬ (2 ∣ 3) ∧
    Distributed.rank_local_A 3 2 [0, 1, 2, 1, 2, 3, 2, 3, 4] junk7 1 = some [2, 3, 2, 3] ∧
    Distributed.rank_local_C 3 2 [0, 1, 2, 1, 2, 3, 2, 3, 4] [0, -1, -2, 1, 0, -1, 2, 1, 0]
      junk7 1 = some [7, 0, -7, 7] ∧
    Distributed.pipeline 3 2 [0, 1, 2, 1, 2, 3, 2, 3, 4] [0, -1, -2, 1, 0, -1, 2, 1, 0]
      (malloc 9 junk7.C) junk7 = some [5, 2, -1, 7, 7, 0, -7, 7, 7] ∧
    (List.range 3).map
      (Distributed.dot 3 [0, 1, 2, 1, 2, 3, 2, 3, 4] [0, -1, -2, 1, 0, -1, 2, 1, 0] 1) =
        [8, 2, -4] := by
  decide

/-- C12 (amended): for every `N` and `P ≥ 1` with `P` not dividing `N` the `P`
 ranks compute `P * (N / P) < N` rows in total; for every rank `r < P` and
 local row `t < N / P` the row computed by rank `r` is the product with `B` of
 the `N` consecutive cells of `A` that start at offset `r * (N*N/P) + t * N`,
 and it is placed at that same offset of `C`; whenever that offset is a row
 boundary `q * N` this is row `q` of the true product, placed at row `q` of
 `C`, which is the case for rank 0 (with `q = t`). -/
theorem C12_uneven_division (n world_size : Nat) (A B C0 : Buf) (g : Distributed.Junk)
    (hP : 1 ≤ world_size) (hnd : ¬ world_size ∣ n)
    (hA : A.length = n * n) (hB : B.length = n * n) (hC0 : C0.length = n * n) :
    world_size * (n / world_size) < n ∧
    ∃ C, Distributed.pipeline n world_size A B C0 g = some C ∧
      (∀ r t j, r < world_size → t < n / world_size → j < n →
        C[r * Distributed.chunk_count n world_size + (t * n + j)]? =
          some (∑ k ∈ Finset.range n,
            A.getD (r * Distributed.chunk_count n world_size + (t * n + k)) 0 *
              B.getD (k * n + j) 0)) ∧
      (∀ r t q j, r < world_size → t < n / world_size → j < n →
        r * Distributed.chunk_count n world_size + t * n = q * n →
        C[q * n + j]? = some (Distributed.dot n A B q j)) ∧
      ∀ t j, t < n / world_size → j < n → C[t * n + j]? = some (Distributed.dot n A B t j) := by
  obtain ⟨C, h1, _, h3, _, _⟩ := Distributed.pipeline_spec n world_size A B C0 g hP hA hB hC0
  have haligned : ∀ r t q j, r < world_size → t < n / world_size → j < n →
      r * Distributed.chunk_count n world_size + t * n = q * n →
      C[q * n + j]? = some (Distributed.dot n A B q j) := by
    intro r t q j hr ht hj hq
    have h := h3 r t j hr ht hj
    have hcell : ∀ x, r * Distributed.chunk_count n world_size + (t * n + x) = q * n + x := by
      intro x
      rw [← Nat.add_assoc, hq]
    rw [hcell j] at h
    rw [h]
    unfold Distributed.dot
    congr 1
    refine Finset.sum_congr rfl (fun k _ => ?_)
    rw [hcell k]
  refine ⟨?_, C, h1, h3, haligned, ?_⟩
  · refine lt_of_le_of_ne (Nat.mul_div_le n world_size) (fun heq => hnd ?_)
    exact Dvd.intro _ heq
  · intro t j ht hj
    exact haligned 0 t t j (by omega) ht hj (by rw [Nat.zero_mul, Nat.zero_add])

/-- C12 (amended) at `N = 6`, `P = 4`, where rank 2 starts on a row boundary
 and ranks 1 and 3 do not. -/
theorem C12_witness :
    (1 ≤ 4 ∧ ¬ (4 ∣ 6) ∧ (malloc 36 (fun t => (t : Int))).length = 6 * 6 ∧
      (malloc 36 (fun t => 2 * (t : Int))).length = 6 * 6 ∧
      (List.replicate 36 7 : Buf).length = 6 * 6) ∧
    (4 * (6 / 4) < 6 ∧
    ∃ C, Distributed.pipeline 6 4 (malloc 36 (fun t => (t : Int)))
        (malloc 36 (fun t => 2 * (t : Int))) (List.replicate 36 7) junk7 = some C ∧
      (∀ r t j, r < 4 → t < 6 / 4 → j < 6 →
        C[r * Distributed.chunk_count 6 4 + (t * 6 + j)]? =
          some (∑ k ∈ Finset.range 6,
            (malloc 36 (fun t => (t : Int))).getD
                (r * Distributed.chunk_count 6 4 + (t * 6 + k)) 0 *
              (malloc 36 (fun t => 2 * (t : Int))).getD (k * 6 + j) 0)) ∧
      (∀ r t q j, r < 4 → t < 6 / 4 → j < 6 →
        r * Distributed.chunk_count 6 4 + t * 6 = q * 6 →
        C[q * 6 + j]? = some (Distributed.dot 6 (malloc 36 (fun t => (t : Int)))
          (malloc 36 (fun t => 2 * (t : Int))) q j)) ∧
      ∀ t j, t < 6 / 4 → j < 6 →
        C[t * 6 + j]? = some (Distributed.dot 6 (malloc 36 (fun t => (t : Int)))
          (malloc 36 (fun t => 2 * (t : Int))) t j)) :=
  ⟨⟨by decide, by decide, malloc_length 36 _, malloc_length 36 _, rfl⟩,
    C12_uneven_division 6 4 (malloc 36 (fun t => (t : Int)))
      (malloc 36 (fun t => 2 * (t : Int))) (List.replicate 36 7) junk7 (by decide) (by decide)
      (malloc_length 36 _) (malloc_length 36 _) rfl⟩

/-- C13: for every `n`, `r1`, `r2`, every `A1` of `r1 * n` cells, `A2` of
 `r2 * n` cells and `B` of `n * n` cells, the output of
 `matrix_multiply(r1 + r2, n, A1 ++ A2, B, .)` is the concatenation of the
 outputs of `matrix_multiply(r1, n, A1, B, .)` and
 `matrix_multiply(r2, n, A2, B, .)`, whatever the output buffers held before;
 and two operands that agree on row `i` give the same output row `i`. -/
theorem C13_row_block_homomorphism (n r1 r2 : Nat) (A1 A2 B C C1 C2 : Buf)
    (hA1 : A1.length = r1 * n) (hA2 : A2.length = r2 * n) (hB : B.length = n * n)
    (hC : C.length = (r1 + r2) * n) (hC1 : C1.length = r1 * n) (hC2 : C2.length = r2 * n) :
    (∃ D D1 D2, Distributed.matrix_multiply (r1 + r2) n (A1 ++ A2) B C = some D ∧
      Distributed.matrix_multiply r1 n A1 B C1 = some D1 ∧
      Distributed.matrix_multiply r2 n A2 B C2 = some D2 ∧ D = D1 ++ D2) ∧
    ∀ A' C', A'.length = (r1 + r2) * n → C'.length = (r1 + r2) * n →
      ∀ i, i < r1 + r2 → (∀ k, k < n → A'[i * n + k]? = (A1 ++ A2)[i * n + k]?) →
        ∃ D D', Distributed.matrix_multiply (r1 + r2) n (A1 ++ A2) B C = some D ∧
          Distributed.matrix_multiply (r1 + r2) n A' B C' = some D' ∧
          ∀ j, j < n → D'[i * n + j]? = D[i * n + j]? := by
  have hA : (A1 ++ A2).length = (r1 + r2) * n := by
    rw [List.length_append, hA1, hA2, Nat.add_mul]
  obtain ⟨D, d1, d2, d3, _⟩ := Distributed.matrix_multiply_spec (r1 + r2) n (A1 ++ A2) B C
    (by rw [hA]) (by rw [hB]) (by rw [hC])
  obtain ⟨D1, e1, e2, e3, _⟩ := Distributed.matrix_multiply_spec r1 n A1 B C1
    (by rw [hA1]) (by rw [hB]) (by rw [hC1])
  obtain ⟨D2, f1, f2, f3, _⟩ := Distributed.matrix_multiply_spec r2 n A2 B C2
    (by rw [hA2]) (by rw [hB]) (by rw [hC2])
  refine ⟨⟨D, D1, D2, d1, e1, f1, ?_⟩, ?_⟩
  · apply List.ext_getElem?
    intro t
    have hD1 : D1.length = r1 * n := by rw [e2, hC1]
    have hD2 : D2.length = r2 * n := by rw [f2, hC2]
    by_cases ht1 : t < r1 * n
    · obtain ⟨hi, hj, hidx⟩ := chunk_index n r1 t ht1
      rw [List.getElem?_append_left (by rw [hD1]; exact ht1), ← hidx,
        d3 _ _ (by omega) hj, e3 _ _ hi hj, dot_append_left n r1 A1 A2 B hA1 _ _ hi]
    · by_cases ht2 : t < (r1 + r2) * n
      · have hu : t - r1 * n < r2 * n := by rw [Nat.add_mul] at ht2; omega
        obtain ⟨hi, hj, hidx⟩ := chunk_index n r2 (t - r1 * n) hu
        have ht : t = (r1 + (t - r1 * n) / n) * n + (t - r1 * n) % n := by
          rw [Nat.add_mul, Nat.add_assoc, hidx]; omega
        have hsplit : (D1 ++ D2)[t]? =
            D2[(t - r1 * n) / n * n + (t - r1 * n) % n]? := by
          rw [List.getElem?_append_right (by rw [hD1]; omega), hD1, hidx]
        have hD : D[t]? = D[(r1 + (t - r1 * n) / n) * n + (t - r1 * n) % n]? :=
          congrArg (fun x => D[x]?) ht
        rw [hsplit, hD, f3 _ _ hi hj, d3 _ _ (by omega) hj,
          dot_append_right n r1 A1 A2 B hA1]
      · rw [List.getElem?_eq_none (by rw [d2, hC]; omega),
          List.getElem?_eq_none (by rw [List.length_append, hD1, hD2, ← Nat.add_mul]; omega)]
  · intro A' C' hA' hC' i hi hrow
    obtain ⟨D', g1, _, g3, _⟩ := Distributed.matrix_multiply_spec (r1 + r2) n A' B C'
      (by rw [hA']) (by rw [hB]) (by rw [hC'])
    refine ⟨D, D', d1, g1, fun j hj => ?_⟩
    rw [g3 i j hi hj, d3 i j hi hj, dot_congr_row n (A1 ++ A2) A' B i j hrow]

/-- C13 at `n = 2`, `r1 = r2 = 1`. -/
theorem C13_witness :
    (([1, 2] : Buf).length = 1 * 2 ∧ ([3, 4] : Buf).length = 1 * 2 ∧
      ([5, 6, 7, 8] : Buf).length = 2 * 2 ∧ ([9, 9, 9, 9] : Buf).length = (1 + 1) * 2 ∧
      ([0, 1] : Buf).length = 1 * 2 ∧ ([2, 3] : Buf).length = 1 * 2) ∧
    ((∃ D D1 D2, Distributed.matrix_multiply (1 + 1) 2 ([1, 2] ++ [3, 4]) [5, 6, 7, 8]
        [9, 9, 9, 9] = some D ∧
      Distributed.matrix_multiply 1 2 [1, 2] [5, 6, 7, 8] [0, 1] = some D1 ∧
      Distributed.matrix_multiply 1 2 [3, 4] [5, 6, 7, 8] [2, 3] = some D2 ∧ D = D1 ++ D2) ∧
    ∀ A' C', A'.length = (1 + 1) * 2 → C'.length = (1 + 1) * 2 →
      ∀ i, i < 1 + 1 → (∀ k, k < 2 → A'[i * 2 + k]? = (([1, 2] : Buf) ++ [3, 4])[i * 2 + k]?) →
        ∃ D D', Distributed.matrix_multiply (1 + 1) 2 ([1, 2] ++ [3, 4]) [5, 6, 7, 8]
            [9, 9, 9, 9] = some D ∧
          Distributed.matrix_multiply (1 + 1) 2 A' [5, 6, 7, 8] C' = some D' ∧
          ∀ j, j < 2 → D'[i * 2 + j]? = D[i * 2 + j]?) :=
  ⟨⟨rfl, rfl, rfl, rfl, rfl, rfl⟩,
    C13_row_block_homomorphism 2 1 1 [1, 2] [3, 4] [5, 6, 7, 8] [9, 9, 9, 9] [0, 1] [2, 3]
      rfl rfl rfl rfl rfl rfl⟩

/-- C14 (as stated, refuted): at `n = 46341` the count `n * n` = 2147488281
 does not fit in a 32-bit `int` (`INT_MAX` = 2147483647), so the program with
 the source's `int` arithmetic has no defined result, already for one
 process. -/
theorem C14_counterexample :
    46341 * 46341 = 2147488281 ∧ INT_MAX < 46341 * 46341 ∧
    Distributed.main_int 46341 1 junk7 = none := by
  decide

/-- C14 (amended): for every `n` with `n * n ≤ INT_MAX` (the source's
 `n = 1000` is such an `n`) and every `P ≥ 1`, divisible or not,
 `(n / P) * n ≤ n * n / P` and `P * (n * n / P) ≤ n * n`; hence every index
 `i*n+j`, `i*n+k` used by `matrix_multiply(n / P, n, local_A, B, local_C)`
 lies inside the `n*n/P`-cell buffers `local_A` and `local_C`, every index
 `k*n+j` lies inside the `n*n`-cell `B`, and the gathered chunks fit inside
 the `n*n`-cell `C`: with every count and index evaluated in `int` and every
 access bounds-checked, the kernel call on every rank returns, the pipeline
 returns and `main` returns. -/
theorem C14_in_bounds (n world_size : Nat) (A B : Buf) (g : Distributed.Junk)
    (hP : 1 ≤ world_size) (hn : n * n ≤ INT_MAX)
    (hA : A.length = n * n) (hB : B.length = n * n) :
    n / world_size * n ≤ n * n / world_size ∧
    world_size * (n * n / world_size) ≤ n * n ∧
    (∀ i j k, i < n / world_size → j < n → k < n →
      i * n + j < n * n / world_size ∧ i * n + k < n * n / world_size ∧ k * n + j < n * n) ∧
    (∀ r, r < world_size → r * (n * n / world_size) + n * n / world_size ≤ n * n) ∧
    (∀ r, r < world_size → ∃ LA LC,
      Distributed.rank_local_A_int n world_size A g r = some LA ∧
      LA.length = n * n / world_size ∧
      Distributed.matrix_multiply_int (n / world_size) n LA B
        (malloc (n * n / world_size) (g.local_C r)) = some LC ∧
      LC.length = n * n / world_size) ∧
    (∃ C, Distributed.pipeline_int n world_size A B (malloc (n * n) g.C) g = some C ∧
      C.length = n * n) ∧
    (Distributed.main_int n world_size g).isSome = true := by
  obtain ⟨h1, h2, h3, h4, h5, h6, h7⟩ := in_bounds_nat n world_size A B g hP hA hB
  refine ⟨h1, h2, h3, h4, ?_, ?_, ?_⟩
  · intro r hr
    obtain ⟨LA, LC, k1, k2, k3, k4⟩ := h5 r hr
    refine ⟨LA, LC, ?_, k2, ?_, k4⟩
    · rw [rank_local_A_int_eq n world_size A g r hn]; exact k1
    · rw [matrix_multiply_int_eq _ n LA B _ (Nat.div_le_self n world_size) hn]; exact k3
  · obtain ⟨C, k1, k2⟩ := h6
    exact ⟨C, by rw [pipeline_int_eq n world_size A B _ g hn]; exact k1, k2⟩
  · rw [main_int_eq n world_size g hn]; exact h7

/-- C14 (amended) at `n = 3`, `P = 2`, a process count that does not divide
 the size. -/
theorem C14_witness :
    (1 ≤ 2 ∧ 3 * 3 ≤ INT_MAX ∧ ([1, 2, 3, 4, 5, 6, 7, 8, 9] : Buf).length = 3 * 3 ∧
      ([9, 8, 7, 6, 5, 4, 3, 2, 1] : Buf).length = 3 * 3) ∧
    (3 / 2 * 3 ≤ 3 * 3 / 2 ∧
    2 * (3 * 3 / 2) ≤ 3 * 3 ∧
    (∀ i j k, i < 3 / 2 → j < 3 → k < 3 →
      i * 3 + j < 3 * 3 / 2 ∧ i * 3 + k < 3 * 3 / 2 ∧ k * 3 + j < 3 * 3) ∧
    (∀ r, r < 2 → r * (3 * 3 / 2) + 3 * 3 / 2 ≤ 3 * 3) ∧
    (∀ r, r < 2 → ∃ LA LC,
      Distributed.rank_local_A_int 3 2 [1, 2, 3, 4, 5, 6, 7, 8, 9] junk7 r = some LA ∧
      LA.length = 3 * 3 / 2 ∧
      Distributed.matrix_multiply_int (3 / 2) 3 LA [9, 8, 7, 6, 5, 4, 3, 2, 1]
        (malloc (3 * 3 / 2) (junk7.local_C r)) = some LC ∧
      LC.length = 3 * 3 / 2) ∧
    (∃ C, Distributed.pipeline_int 3 2 [1, 2, 3, 4, 5, 6, 7, 8, 9] [9, 8, 7, 6, 5, 4, 3, 2, 1]
        (malloc (3 * 3) junk7.C) junk7 = some C ∧
      C.length = 3 * 3) ∧
    (Distributed.main_int 3 2 junk7).isSome = true) :=
  ⟨⟨by decide, by decide, rfl, rfl⟩,
    C14_in_bounds 3 2 [1, 2, 3, 4, 5, 6, 7, 8, 9] [9, 8, 7, 6, 5, 4, 3, 2, 1] junk7
      (by decide) (by decide) rfl rfl⟩

/-- C15: for `n = 1000` (distributed program) and `n = 1009` (sequential
 program), with `A[i][j] = i + j` and `B[i][j] = i - j`, every product
 `A[i][k] * B[k][j]` and every partial sum of the first `m ≤ n` products of a
 cell is an integer of absolute value at most `2 n³ < 2^53`; hence, for every
 rounding `rnd` that returns integers of absolute value at most `2^53` as
 they are (as the `double` format does), each program run in `double`
 arithmetic computes and prints exactly what its integer model does. -/
theorem C15_exact_accumulation (rnd : Int → Int)
    (hrnd : ∀ z : Int, |z| ≤ 2 ^ 53 → rnd z = z) :
    (2 * (1000 : Int) ^ 3 < 2 ^ 53 ∧ 2 * (1009 : Int) ^ 3 < 2 ^ 53) ∧
    (∀ n i j k m : Nat, (n = 1000 ∨ n = 1009) → i < n → j < n → k < n → m ≤ n →
      |((i : Int) + (k : Int)) * ((k : Int) - (j : Int))| ≤ 2 * (n : Int) ^ 3 ∧
      |∑ q ∈ Finset.range m, ((i : Int) + (q : Int)) * ((q : Int) - (j : Int))| ≤
        2 * (n : Int) ^ 3) ∧
    (∀ (world_size : Nat) (g : Distributed.Junk),
      Distributed.main_fl rnd 1000 world_size g = Distributed.main 1000 world_size g) ∧
    (∀ g : Sequential.Junk, Sequential.main_fl rnd 1009 g = Sequential.main 1009 g) := by
  refine ⟨by norm_num, ?_, ?_, ?_⟩
  · intro n i j k m _ hi hj hk hm
    exact builtin_partial_sums n i j k m hi hj hk hm
  · intro world_size g
    exact main_fl_eq rnd hrnd 1000 world_size g (by norm_num)
  · intro g
    exact seq_main_fl_eq rnd hrnd 1009 g (by norm_num)

/-- C15 for a rounding that is exact up to `2^53` and drops the last bit
 above. -/
theorem C15_witness :
    (∀ z : Int, |z| ≤ 2 ^ 53 → rnd53 z = z) ∧
    ((2 * (1000 : Int) ^ 3 < 2 ^ 53 ∧ 2 * (1009 : Int) ^ 3 < 2 ^ 53) ∧
    (∀ n i j k m : Nat, (n = 1000 ∨ n = 1009) → i < n → j < n → k < n → m ≤ n →
      |((i : Int) + (k : Int)) * ((k : Int) - (j : Int))| ≤ 2 * (n : Int) ^ 3 ∧
      |∑ q ∈ Finset.range m, ((i : Int) + (q : Int)) * ((q : Int) - (j : Int))| ≤
        2 * (n : Int) ^ 3) ∧
    (∀ (world_size : Nat) (g : Distributed.Junk),
      Distributed.main_fl rnd53 1000 world_size g = Distributed.main 1000 world_size g) ∧
    (∀ g : Sequential.Junk, Sequential.main_fl rnd53 1009 g = Sequential.main 1009 g)) :=
  ⟨fun _ hz => if_pos hz, C15_exact_accumulation rnd53 (fun _ hz => if_pos hz)⟩
